import Mathlib

/-!
Verification of the extraction engine of the game-site-scraper repository.

Strings are modelled as lists of characters (`Str`); Rust byte indices into
valid UTF-8 correspond one-to-one to character positions for the ASCII label
and marker constants used by the code, so `List Char` positions are faithful.
The HTML tree and CSS selection are performed by the external `scraper`
library; following the design note in the spec (selector queries as a narrow
capability interface), a parsed document is modelled as the record of the
query results for the fixed selectors the extractors use (`Doc` below).
Regex character classes are modelled on the ASCII range the inputs use.
-/

namespace GSS

/-- Characters of a string; Rust string slices are modelled as `List Char`. -/
abbrev Str := List Char

/-- Converts a Lean string literal to the `List Char` model. -/
def str (s : String) : Str := s.data

/-- Whitespace predicate used by Rust `split_whitespace` and `trim`,
modelled on the characters that occur in the inputs. -/
def isWs (c : Char) : Bool := c.isWhitespace

/-- Negation of `isWs`, for `takeWhile`/`dropWhile` arguments. -/
def notWs (c : Char) : Bool := !(isWs c)

/-- Rust `str::to_ascii_lowercase`, character by character. -/
def lowerStr (s : Str) : Str := s.map Char.toLower

/-- Rust `str::trim`: removes whitespace from both ends. -/
def trimStr (s : Str) : Str :=
  ((s.dropWhile isWs).reverse.dropWhile isWs).reverse

/-- Accumulator pass of `splitWs`: builds the current word in reverse. -/
def splitWsAux : Str → Str → List Str
  | [], acc => if acc = [] then [] else [acc.reverse]
  | c :: t, acc =>
    if isWs c then
      if acc = [] then splitWsAux t [] else acc.reverse :: splitWsAux t []
    else
      splitWsAux t (c :: acc)

/-- Rust `str::split_whitespace` collected to a list: the maximal runs of
non-whitespace characters, in order. -/
def splitWs (s : Str) : List Str := splitWsAux s []

/-- Rust `Vec::join(" ")` on a list of words. -/
def joinWords : List Str → Str
  | [] => []
  | [w] => w
  | w :: v :: vs => w ++ ' ' :: joinWords (v :: vs)

/-- Embeds `normalize_ws` from src/parser/util.rs: split on whitespace runs
and rejoin with single spaces. -/
def normalize_ws (s : Str) : Str := joinWords (splitWs s)

/-- First index at which `pat` occurs as a contiguous substring of `text`;
embeds Rust `str::find` for string patterns. -/
def findSub : Str → Str → Option Nat
  | [], pat => if pat.isPrefixOf ([] : Str) then some 0 else none
  | c :: t, pat =>
    if pat.isPrefixOf (c :: t) then some 0 else (findSub t pat).map (· + 1)

/-- Rust `str::contains` for string patterns. -/
def containsSub (text pat : Str) : Bool := (findSub text pat).isSome

/-- Boolean lexicographic order on strings; embeds the `Ord` instance of
Rust `String` (byte order on valid UTF-8 agrees with code-point order). -/
def strLeB : Str → Str → Bool
  | [], _ => true
  | _ :: _, [] => false
  | a :: s, b :: t =>
    if a < b then true else if b < a then false else strLeB s t

/-- Propositional form of `strLeB`. -/
def strLe (a b : Str) : Prop := strLeB a b = true

instance (a b : Str) : Decidable (strLe a b) := by
  unfold strLe; infer_instance

/-- Strict lexicographic order on strings. -/
def strLt (a b : Str) : Prop := strLe a b ∧ a ≠ b

instance (a b : Str) : Decidable (strLt a b) := by
  unfold strLt; infer_instance

/-- Insertion into a `strLeB`-sorted list. -/
def insertSorted (x : Str) : List Str → List Str
  | [] => [x]
  | y :: t => if strLeB x y then x :: y :: t else y :: insertSorted x t

/-- Sorting by the lexicographic order; models Rust `Vec::sort` (whose
output on a total antisymmetric order is the unique sorted permutation). -/
def sortStr : List Str → List Str
  | [] => []
  | x :: t => insertSorted x (sortStr t)

/-- Rust `Vec::dedup`: removes consecutive repeated elements. -/
def dedupAdj : List Str → List Str
  | [] => []
  | [a] => [a]
  | a :: b :: t => if a = b then dedupAdj (b :: t) else a :: dedupAdj (b :: t)

/-- The `sort(); dedup()` idiom applied to string lists throughout
src/parser/release_page.rs. -/
def sortDedup (l : List Str) : List Str := dedupAdj (sortStr l)

/-- Accumulator pass for splitting on commas. -/
def splitCommaAux : Str → Str → List Str
  | [], acc => [acc.reverse]
  | c :: t, acc =>
    if c = ',' then acc.reverse :: splitCommaAux t [] else splitCommaAux t (c :: acc)

/-- Embeds `split_csvish`: split on commas, trim pieces, drop empties. -/
def split_csvish (s : Str) : List Str :=
  ((splitCommaAux s []).map trimStr).filter (fun x => x ≠ [])

/-- The candidate-minimum loop of `capture_between_labels`, with its
accumulator explicit: each next label found in `tail` lowers the
accumulated end position to `start` plus its offset. -/
def segEndFrom (tail : Str) (start : Nat) (nls : List Str) (init : Nat) : Nat :=
  nls.foldl (fun e nl =>
    match findSub tail nl with
    | some p => min e (start + p)
    | none => e) init

/-- End position computed by `capture_between_labels`: the loop starting
from the text length. -/
def segEnd (text : Str) (start : Nat) (nls : List Str) : Nat :=
  segEndFrom (text.drop start) start nls text.length

/-- Embeds `capture_between_labels`: the text after the first occurrence of
`label`, cut at the nearest following occurrence of any of `next_labels`,
trimmed; absent when `label` is missing or the trimmed slice is empty. -/
def capture_between_labels (text label : Str) (next_labels : List Str) : Option Str :=
  match findSub text label with
  | none => none
  | some i =>
    let start := i + label.length
    let e := segEnd text start next_labels
    let value := trimStr ((text.drop start).take (e - start))
    if value = [] then none else some value

/-- Digit-run value, for Rust `str::parse::<u64>` on regex captures. -/
def digitsToNat (ds : Str) : Nat :=
  ds.foldl (fun n c => n * 10 + (c.toNat - 48)) 0

/-- Rust `str::parse::<u64>().ok()` on a digit run: fails on overflow. -/
def parseU64 (ds : Str) : Option Nat :=
  if ds = [] then none
  else if digitsToNat ds < 2 ^ 64 then some (digitsToNat ds) else none

/-- Embeds the `post-(\d+)` regex: digit run following the first occurrence
of the marker that is immediately followed by a digit. -/
def rePostId : Str → Option Str
  | [] => none
  | c :: t =>
    if (str "post-").isPrefixOf (c :: t) &&
        (match (c :: t).drop 5 with | d :: _ => d.isDigit | [] => false) then
      some (((c :: t).drop 5).takeWhile Char.isDigit)
    else rePostId t

/-- Embeds the release-number regex: a hash mark, an optional whitespace
run, then one to six captured digits (greedy, leftmost match). -/
def reReleaseNo : Str → Option Str
  | [] => none
  | c :: t =>
    if c = '#' then
      let ds := (t.dropWhile isWs).takeWhile Char.isDigit
      if ds = [] then reReleaseNo t else some (ds.take 6)
    else reReleaseNo t

/-- Embeds the first-integer regex: the leftmost maximal digit run. -/
def reFirstInt : Str → Option Str
  | [] => none
  | c :: t => if c.isDigit then some ((c :: t).takeWhile Char.isDigit) else reFirstInt t

/-- Configuration toggles from src/config.rs `ScrapeConfig`; the four
torrent-related toggles are read by src/parser/release_page.rs. -/
structure ScrapeConfig where
  page_title : Bool
  canonical_url : Bool
  meta_tags : Bool
  post_id : Bool
  categories : Bool
  wp_tags : Bool
  entry_title : Bool
  entry_datetime : Bool
  author : Bool
  comments_count : Bool
  release_number : Bool
  game_title_line : Bool
  genres_tags : Bool
  companies : Bool
  languages : Bool
  original_size : Bool
  repack_size : Bool
  spoiler_sections : Bool
  download_section_presence : Bool
  torrent_file : Bool
  torrent_file_name : Bool
  torrent_file_link : Bool
  magnet : Bool

/-- Link-handling toggles from src/config.rs `LinkConfig`. -/
structure LinkConfig where
  domain_counts : Bool
  ignore_magnet : Bool

/-- Profile options from src/config.rs `ProfileConfig`. -/
structure ProfileConfig where
  wordpress_release_layout : Bool
  spoiler_denylist : List Str

/-- Configuration from src/config.rs `Config` (the output-formatting options
are outside the extraction engine and are not modelled). -/
structure Config where
  scrape : ScrapeConfig
  links : LinkConfig
  profile : ProfileConfig

/-- Source provenance of one input file, from src/model.rs `SourceInfo`. -/
structure SourceInfo where
  path : Str
  bytes : Nat
  sha256 : Str
deriving DecidableEq

/-- Page-level metadata, from src/model.rs `PageMeta`; the `BTreeMap` of
meta tags is modelled as a key-sorted association list. -/
structure PageMeta where
  title : Option Str
  canonical_url : Option Str
  meta : List (Str × Str)
deriving DecidableEq

/-- Post-level metadata, from src/model.rs `PostMeta`. -/
structure PostMeta where
  post_id : Option Nat
  categories : List Str
  wp_tags : List Str
  entry_title : Option Str
  entry_datetime : Option Str
  author : Option Str
  comments_count : Option Nat
deriving DecidableEq

/-- Release-level metadata, from src/model.rs `ReleaseMeta`. -/
structure ReleaseMeta where
  release_number : Option Nat
  game_title_line : Option Str
  genres_tags : List Str
  companies : List Str
  languages_raw : Option Str
  original_size_raw : Option Str
  repack_size_raw : Option Str
deriving DecidableEq

/-- One kept spoiler block, from src/model.rs `SpoilerSection`. -/
structure SpoilerSection where
  title : Str
  text : Str
deriving DecidableEq

/-- The per-file output record. The first eight fields are the struct of
src/model.rs; the four torrent fields are the ones src/parser/release_page.rs
populates on it. The `BTreeMap` of domain counts is a key-sorted
association list. -/
structure ParsedDocument where
  source : SourceInfo
  site : Str
  page : Option PageMeta
  post : Option PostMeta
  release : Option ReleaseMeta
  spoiler_sections : List SpoilerSection
  link_domain_counts : List (Str × Nat)
  download_section_headings : List Str
  torrent_file : Option Bool
  torrent_file_names : List Str
  torrent_file_links : List Str
  magnet_links : List Str
deriving DecidableEq

/-- Aggregate statistics, from src/model.rs `Stats`. -/
structure Stats where
  input_count : Nat
  parsed_ok : Nat
  parsed_err : Nat
deriving DecidableEq

/-- One per-file error entry, from src/model.rs `ParseError`. -/
structure ParseErrorEntry where
  path : Str
  error : Str
deriving DecidableEq

/-- Batch output, from src/model.rs `OutputBundle` (the constant `ToolInfo`
identity comes from build-time environment variables and is not modelled). -/
structure OutputBundle where
  stats : Stats
  documents : List ParsedDocument
  errors : List ParseErrorEntry

/-- One `meta` element: its `property`, `name` and `content` attributes. -/
structure MetaTag where
  property : Option Str
  name : Option Str
  content : Option Str

/-- One hyperlink element matched by the `a[href]` selector: the raw value
of its `href` attribute and its flattened text (text nodes joined by a
single space, as the code joins them before normalizing). -/
structure Anchor where
  href : Str
  text : Str

/-- One paragraph matched by `div.entry-content p`: its hyperlink
descendants (document order) and its flattened text. -/
structure Para where
  anchors : List Anchor
  rawText : Str

/-- One `div.su-spoiler` container inside the content: the flattened texts
of its first title and first content sub-elements, absent when the
sub-element is missing. -/
structure SpoilerBlock where
  titleText : Option Str
  contentText : Option Str

/-- The first element matched by the article selector: its `id` and
`class` attributes as the two `select_attr` calls read them. -/
structure ArticleEl where
  idAttr : Option Str
  classAttr : Option Str

/-- The first element matched by `time.entry-date`: its `datetime`
attribute and its flattened text. -/
structure TimeEl where
  datetimeAttr : Option Str
  text : Str

/-- Query results of the fixed selectors used by the extractors, for one
parsed document tree (the selector capability interface of the spec,
instantiated at the selectors of src/parser/release_page.rs). Flattened
texts are stored raw; normalization happens in the extractors. -/
structure Doc where
  headTitle : Option Str
  canonicalHref : Option Str
  metas : List MetaTag
  article : Option ArticleEl
  catLinkTexts : List Str
  entryTitleText : Option Str
  entryDate : Option TimeEl
  authorText : Option Str
  commentsText : Option Str
  contentH3s : List Str
  contentParas : List Para
  spoilers : List SpoilerBlock
  anchors : List Anchor

/-- Embeds `select_text` at a pre-queried first element: normalized
flattened text, treated as absent when empty. -/
def select_text (raw : Option Str) : Option Str :=
  raw.bind (fun t => if normalize_ws t = [] then none else some (normalize_ws t))

/-- Embeds `select_all_text` at a pre-queried element list: normalized
flattened texts with the empty ones dropped. -/
def select_all_text (raws : List Str) : List Str :=
  raws.filterMap (fun t => if normalize_ws t = [] then none else some (normalize_ws t))

/-- First-wins insertion into the key-sorted association list modelling
`BTreeMap::entry(k).or_insert(v)`. -/
def mapInsertAbsent : List (Str × Str) → Str → Str → List (Str × Str)
  | [], k, v => [(k, v)]
  | (k0, v0) :: t, k, v =>
    if k = k0 then (k0, v0) :: t
    else if strLeB k k0 then (k, v) :: (k0, v0) :: t
    else (k0, v0) :: mapInsertAbsent t k v

/-- Embeds `extract_meta_tags`: key is the `property` attribute when
present, else `name`; entries without key or content are skipped; the first
occurrence of a key wins. -/
def extract_meta_tags (metas : List MetaTag) : List (Str × Str) :=
  metas.foldl (fun out m =>
    match m.property.orElse (fun _ => m.name), m.content with
    | some k, some v => mapInsertAbsent out k v
    | _, _ => out) []

/-- Embeds `find_first_paragraph_html_containing` at the content-paragraph
selector: the first paragraph whose normalized text contains the needle. -/
def find_first_paragraph_containing (paras : List Para) (needle : Str) : Option Para :=
  paras.find? (fun p => containsSub (normalize_ws p.rawText) needle)

/-- Embeds `html_to_text` on a paragraph fragment: its normalized
flattened text. -/
def html_to_text (p : Para) : Str := normalize_ws p.rawText

/-- Embeds `extract_anchor_texts_from_fragment` at the tag-anchor selector:
normalized non-empty texts of the anchors whose target contains the given
path fragment, sorted and deduplicated. -/
def extract_anchor_texts_from_fragment (p : Para) (hrefNeedle : Str) : List Str :=
  sortDedup ((p.anchors.filter (fun a => containsSub a.href hrefNeedle)).filterMap
    (fun a => if normalize_ws a.text = [] then none else some (normalize_ws a.text)))

/-- Processing of a single spoiler container inside `extract_spoilers`:
denylist test on the lowercased normalized title, then the non-emptiness
test on title and content. -/
def processSpoiler (denylist : List Str) (sp : SpoilerBlock) : Option SpoilerSection :=
  let title := (sp.titleText.map normalize_ws).getD []
  let title_l := lowerStr title
  if denylist.any (fun term => containsSub title_l (lowerStr term)) then none
  else
    let text := (sp.contentText.map normalize_ws).getD []
    if title ≠ [] ∧ text ≠ [] then some ⟨title, text⟩ else none

/-- Embeds `extract_spoilers`: every spoiler container, in document order,
filtered by `processSpoiler`. -/
def extract_spoilers (spoilers : List SpoilerBlock) (denylist : List Str) : List SpoilerSection :=
  spoilers.filterMap (processSpoiler denylist)

/-- Modelled from the spec: the host extraction performed by the external
`url` crate (`Url::parse` then `host_str`) on an absolute http(s) target —
the authority runs to the first slash, question mark or hash, user
information up to the last at-sign and a trailing port are removed, and the
hostname is normalized to lowercase; parsing fails (no host) when the
remaining hostname is empty. -/
def urlHost (href : Str) : Option Str :=
  let l := lowerStr href
  let rest :=
    if (str "http://").isPrefixOf l then href.drop 7
    else if (str "https://").isPrefixOf l then href.drop 8
    else []
  let auth := rest.takeWhile (fun c => !(c = '/' || c = '?' || c = '#'))
  let hostport := ((auth.reverse.takeWhile (fun c => !(c = '@')))).reverse
  let host := hostport.takeWhile (fun c => !(c = ':'))
  if host = [] then none else some (lowerStr host)

/-- Embeds `bump_domain_count` from src/parser/util.rs on the key-sorted
association list modelling the `BTreeMap`. -/
def bump_domain_count : List (Str × Nat) → Str → List (Str × Nat)
  | [], d => [(d, 1)]
  | (k, v) :: t, d =>
    if d = k then (k, v + 1) :: t
    else if strLeB d k then (d, 1) :: (k, v) :: t
    else (k, v) :: bump_domain_count t d

/-- Count of a key in the domain-count map. -/
def lookupCount (m : List (Str × Nat)) (k : Str) : Nat :=
  ((m.find? (fun p => p.1 = k)).map Prod.snd).getD 0

/-- One loop iteration of `extract_domain_counts`: skip a magnet target
when the toggle is on, skip a non-http(s) target, and bump the parsed
host of the rest (silently skipping a failed URL parse). -/
def edcStep (ignore_magnet : Bool) (out : List (Str × Nat)) (a : Anchor) :
    List (Str × Nat) :=
  let href_l := lowerStr a.href
  if ignore_magnet && (str "magnet:").isPrefixOf href_l then out
  else if !((str "http://").isPrefixOf href_l || (str "https://").isPrefixOf href_l) then out
  else
    match urlHost a.href with
    | some host => bump_domain_count out host
    | none => out

/-- Embeds `extract_domain_counts`: magnet targets are skipped when the
toggle is on, non-http(s) targets are skipped, and each remaining target
whose URL parse yields a host bumps that host. -/
def extract_domain_counts (anchors : List Anchor) (ignore_magnet : Bool) : List (Str × Nat) :=
  anchors.foldl (edcStep ignore_magnet) []

/-- Result triple of `extract_torrent_and_magnet`. -/
structure TorrentMagnetExtract where
  torrent_file_names : List Str
  torrent_file_links : List Str
  magnet_links : List Str

/-- Embeds `extract_torrent_and_magnet`: magnet targets go to the magnet
list; http(s) targets that look like torrents (by target or visible text)
go to the link list and, when the visible text is non-empty, the name
list; all three lists are then sorted and deduplicated. -/
def extract_torrent_and_magnet (anchors : List Anchor) : TorrentMagnetExtract :=
  let step := fun (acc : List Str × List Str × List Str) (a : Anchor) =>
    let href := trimStr a.href
    let href_l := lowerStr href
    let text := normalize_ws a.text
    if (str "magnet:").isPrefixOf href_l then
      (acc.1, acc.2.1, acc.2.2 ++ [href])
    else
      let is_http := (str "http://").isPrefixOf href_l || (str "https://").isPrefixOf href_l
      let text_l := lowerStr text
      let looks_torrent := containsSub href_l (str ".torrent") ||
        containsSub text_l (str ".torrent") || containsSub text_l (str "torrent file")
      if is_http && looks_torrent then
        ((if text = [] then acc.1 else acc.1 ++ [text]), acc.2.1 ++ [href], acc.2.2)
      else acc
  let r := anchors.foldl step ([], [], [])
  { torrent_file_names := sortDedup r.1
    torrent_file_links := sortDedup r.2.1
    magnet_links := sortDedup r.2.2 }

/-- Page block of both parse variants (the two variants run the identical
code): built only when one of the three page toggles is on, and populated
field by field. -/
def buildPage (d : Doc) (cfg : Config) : Option PageMeta :=
  if cfg.scrape.page_title || cfg.scrape.canonical_url || cfg.scrape.meta_tags then
    some
      { title := if cfg.scrape.page_title then select_text d.headTitle else none
        canonical_url := if cfg.scrape.canonical_url then d.canonicalHref else none
        meta := if cfg.scrape.meta_tags then extract_meta_tags d.metas else [] }
  else none

/-- Post block of `parse_wordpress_release`, field by field: the Rust code
mutates disjoint fields of an initially empty `PostMeta` under the same
guards. -/
def buildPost (d : Doc) (cfg : Config) : PostMeta :=
  { post_id :=
      if cfg.scrape.post_id || cfg.scrape.wp_tags then
        match d.article.bind ArticleEl.idAttr with
        | some idv =>
          if cfg.scrape.post_id then (rePostId idv).bind parseU64 else none
        | none => none
      else none
    wp_tags :=
      if cfg.scrape.post_id || cfg.scrape.wp_tags then
        if cfg.scrape.wp_tags then
          match d.article.bind ArticleEl.classAttr with
          | some cls =>
            sortDedup ((splitWs cls).filterMap (fun tok =>
              if (str "tag-").isPrefixOf tok then some (tok.drop 4) else none))
          | none => []
        else []
      else []
    categories := if cfg.scrape.categories then select_all_text d.catLinkTexts else []
    entry_title := if cfg.scrape.entry_title then select_text d.entryTitleText else none
    entry_datetime :=
      if cfg.scrape.entry_datetime then
        match d.entryDate.bind TimeEl.datetimeAttr with
        | some v => some v
        | none => select_text (d.entryDate.map TimeEl.text)
      else none
    author := if cfg.scrape.author then select_text d.authorText else none
    comments_count :=
      if cfg.scrape.comments_count then
        (select_text d.commentsText).bind (fun s => (reFirstInt s).bind parseU64)
      else none }

/-- Normalized text of the Genres/Tags paragraph as the code computes it
(`normalize_ws` applied to `html_to_text`). -/
def paraText (p : Para) : Str := normalize_ws (html_to_text p)

/-- Release block of `parse_wordpress_release`, field by field, mirroring
the two guarded blocks of the Rust code (heading line, then the
Genres/Tags paragraph). -/
def buildRelease (d : Doc) (cfg : Config) : ReleaseMeta :=
  let h3 := select_text d.contentH3s.head?
  let para := find_first_paragraph_containing d.contentParas (str "Genres/Tags:")
  let g5 := cfg.scrape.genres_tags || cfg.scrape.companies || cfg.scrape.languages ||
    cfg.scrape.original_size || cfg.scrape.repack_size
  { release_number :=
      if cfg.scrape.game_title_line || cfg.scrape.release_number then
        if cfg.scrape.release_number then
          match h3 with
          | some v => (reReleaseNo v).bind parseU64
          | none => none
        else none
      else none
    game_title_line :=
      if cfg.scrape.game_title_line || cfg.scrape.release_number then
        if cfg.scrape.game_title_line then h3 else none
      else none
    genres_tags :=
      if g5 then
        match para with
        | some p =>
          if cfg.scrape.genres_tags then
            extract_anchor_texts_from_fragment p (str "/tag/")
          else []
        | none => []
      else []
    companies :=
      if g5 then
        match para with
        | some p =>
          if cfg.scrape.companies then
            match capture_between_labels (paraText p) (str "Companies:")
                [str "Languages:", str "Original Size:", str "Repack Size:"] with
            | some v => split_csvish v
            | none => []
          else []
        | none => []
      else []
    languages_raw :=
      if g5 then
        match para with
        | some p =>
          if cfg.scrape.languages then
            capture_between_labels (paraText p) (str "Languages:")
              [str "Original Size:", str "Repack Size:"]
          else none
        | none => none
      else none
    original_size_raw :=
      if g5 then
        match para with
        | some p =>
          if cfg.scrape.original_size then
            capture_between_labels (paraText p) (str "Original Size:") [str "Repack Size:"]
          else none
        | none => none
      else none
    repack_size_raw :=
      if g5 then
        match para with
        | some p =>
          if cfg.scrape.repack_size then
            capture_between_labels (paraText p) (str "Repack Size:") []
          else none
        | none => none
      else none }

/-- Download-mirror headings: all normalized `h3` texts of the content
container whose lowercased text contains the marker phrase. -/
def downloadHeadings (d : Doc) : List Str :=
  (select_all_text d.contentH3s).filter
    (fun title => containsSub (lowerStr title) (str "download mirrors"))

/-- Guard of the torrent/magnet block: any of its four toggles. -/
def torrentGuard (cfg : Config) : Bool :=
  cfg.scrape.torrent_file || cfg.scrape.torrent_file_name ||
    cfg.scrape.torrent_file_link || cfg.scrape.magnet

/-- The record built by `parse_wordpress_release` (before the batch runner
fills in source path, byte length and hash): page guarded by its toggles,
post and release always attached, the remaining sections toggle-guarded. -/
def assemble_wordpress_release (d : Doc) (cfg : Config) : ParsedDocument :=
  { source := { path := [], bytes := 0, sha256 := [] }
    site := str "wordpress_release"
    page := buildPage d cfg
    post := some (buildPost d cfg)
    release := some (buildRelease d cfg)
    spoiler_sections :=
      if cfg.scrape.spoiler_sections then
        extract_spoilers d.spoilers cfg.profile.spoiler_denylist
      else []
    link_domain_counts :=
      if cfg.links.domain_counts then
        extract_domain_counts d.anchors cfg.links.ignore_magnet
      else []
    download_section_headings :=
      if cfg.scrape.download_section_presence then downloadHeadings d else []
    torrent_file :=
      if torrentGuard cfg then
        if cfg.scrape.torrent_file then
          some (!(extract_torrent_and_magnet d.anchors).torrent_file_links.isEmpty)
        else none
      else none
    torrent_file_names :=
      if torrentGuard cfg then
        if cfg.scrape.torrent_file_name then
          (extract_torrent_and_magnet d.anchors).torrent_file_names
        else []
      else []
    torrent_file_links :=
      if torrentGuard cfg then
        if cfg.scrape.torrent_file_link then
          (extract_torrent_and_magnet d.anchors).torrent_file_links
        else []
      else []
    magnet_links :=
      if torrentGuard cfg then
        if cfg.scrape.magnet then (extract_torrent_and_magnet d.anchors).magnet_links
        else []
      else [] }

/-- The record built by `parse_generic`: page, domain counts and the
torrent block only; no post, release, spoiler or download extraction. -/
def assemble_generic (d : Doc) (cfg : Config) : ParsedDocument :=
  { source := { path := [], bytes := 0, sha256 := [] }
    site := str "generic"
    page := buildPage d cfg
    post := none
    release := none
    spoiler_sections := []
    link_domain_counts :=
      if cfg.links.domain_counts then
        extract_domain_counts d.anchors cfg.links.ignore_magnet
      else []
    download_section_headings := []
    torrent_file :=
      if torrentGuard cfg then
        if cfg.scrape.torrent_file then
          some (!(extract_torrent_and_magnet d.anchors).torrent_file_links.isEmpty)
        else none
      else none
    torrent_file_names :=
      if torrentGuard cfg then
        if cfg.scrape.torrent_file_name then
          (extract_torrent_and_magnet d.anchors).torrent_file_names
        else []
      else []
    torrent_file_links :=
      if torrentGuard cfg then
        if cfg.scrape.torrent_file_link then
          (extract_torrent_and_magnet d.anchors).torrent_file_links
        else []
      else []
    magnet_links :=
      if torrentGuard cfg then
        if cfg.scrape.magnet then (extract_torrent_and_magnet d.anchors).magnet_links
        else []
      else [] }

/-- Embeds `parse_wordpress_release` with its `Result` signature: the body
has no failing path and always returns `Ok`. -/
def parse_wordpress_release (d : Doc) (cfg : Config) : Except Str ParsedDocument :=
  Except.ok (assemble_wordpress_release d cfg)

/-- Embeds `parse_generic` with its `Result` signature: the body has no
failing path and always returns `Ok`. -/
def parse_generic (d : Doc) (cfg : Config) : Except Str ParsedDocument :=
  Except.ok (assemble_generic d cfg)

/-- One successfully read and UTF-8 decoded input file: its decoded text
(for the classifier substring tests), byte length, content hash and the
query results of its parsed tree. -/
structure HtmlFile where
  raw : Str
  bytesLen : Nat
  sha256 : Str
  dom : Doc

/-- Outcome of reading and decoding one input path, the two steps of
`parse_one` that can fail (`std::fs::read` and `String::from_utf8`): the
rendered error message, or the file. -/
abbrev ReadOutcome := Except Str HtmlFile

/-- Embeds `parse_one`: propagate a read/decode failure, otherwise
classify by the two raw-text markers and the layout toggle, run the
matching variant, and stamp source info and site tag. -/
def parse_one (path : Str) (r : ReadOutcome) (cfg : Config) : Except Str ParsedDocument :=
  match r with
  | .error e => .error e
  | .ok f =>
    let is_wp_release := cfg.profile.wordpress_release_layout &&
      containsSub f.raw (str "article id=\"post-") && containsSub f.raw (str "entry-content")
    let d0 := if is_wp_release then assemble_wordpress_release f.dom cfg
      else assemble_generic f.dom cfg
    .ok { d0 with
      source := { path := path, bytes := f.bytesLen, sha256 := f.sha256 }
      site := if is_wp_release then str "wordpress_release" else str "generic" }

/-- One loop iteration of `parse_many`: a parsed document goes to the
document list, a failure becomes an error entry with the input path. -/
def parseStep (cfg : Config) (acc : List ParsedDocument × List ParseErrorEntry)
    (pr : Str × ReadOutcome) : List ParsedDocument × List ParseErrorEntry :=
  match parse_one pr.1 pr.2 cfg with
  | .ok doc => (acc.1 ++ [doc], acc.2)
  | .error e => (acc.1, acc.2 ++ [⟨pr.1, e⟩])

/-- Embeds `parse_many`: each input, in order, appends either a document or
an error entry; the stats are the final counts. -/
def parse_many (files : List (Str × ReadOutcome)) (cfg : Config) : OutputBundle :=
  let r := files.foldl (parseStep cfg) ([], [])
  { stats :=
      { input_count := files.length
        parsed_ok := r.1.length
        parsed_err := r.2.length }
    documents := r.1
    errors := r.2 }

/-- Per-file document outcome: the parsed document when `parse_one`
succeeds on this input, absent otherwise. -/
def okProj (cfg : Config) (pr : Str × ReadOutcome) : Option ParsedDocument :=
  (parse_one pr.1 pr.2 cfg).toOption

/-- Per-file error outcome: the path-tagged error entry when `parse_one`
fails on this input, absent otherwise. -/
def errProj (cfg : Config) (pr : Str × ReadOutcome) : Option ParseErrorEntry :=
  match parse_one pr.1 pr.2 cfg with
  | .error e => some ⟨pr.1, e⟩
  | .ok _ => none

/-- Occurrence of `pat` in `text` at position `i`, stated as the spec
states it (for comparing `findSub` with the spec wording). -/
def OccursAt (pat text : Str) (i : Nat) : Prop := pat <+: text.drop i

/-- First occurrence of `pat` in `text`, as the spec words it. -/
def FirstOccur (pat text : Str) (i : Nat) : Prop :=
  OccursAt pat text i ∧ ∀ j, j < i → ¬ OccursAt pat text j

/-- Characterization of the segmentation end position as the spec words
it: the minimum over the next labels of each one's first occurrence at or
after `start` (as an absolute position), or the end of the text when none
occurs. -/
def SegEndSpec (text : Str) (start : Nat) (nls : List Str) (e : Nat) : Prop :=
  e ≤ text.length ∧
  (∀ nl ∈ nls, ∀ p, FirstOccur nl (text.drop start) p → e ≤ start + p) ∧
  (e = text.length ∨ ∃ nl ∈ nls, ∃ p, FirstOccur nl (text.drop start) p ∧ e = start + p)

/-- Sorted in ascending lexicographic order with no repeated elements, as
the spec words it for the deduplicated output lists. -/
def SortedNodup (l : List Str) : Prop := List.Sorted strLe l ∧ l.Nodup

/-- Configuration with every toggle enabled and the default denylist. -/
def cfgAllOn : Config :=
  { scrape :=
      { page_title := true, canonical_url := true, meta_tags := true
        post_id := true, categories := true, wp_tags := true
        entry_title := true, entry_datetime := true, author := true
        comments_count := true, release_number := true, game_title_line := true
        genres_tags := true, companies := true, languages := true
        original_size := true, repack_size := true, spoiler_sections := true
        download_section_presence := true, torrent_file := true
        torrent_file_name := true, torrent_file_link := true, magnet := true }
    links := { domain_counts := true, ignore_magnet := true }
    profile :=
      { wordpress_release_layout := true
        spoiler_denylist :=
          [str "click to show direct links", str "direct links", str "magnet", str "torrent"] } }

/-- Configuration with every toggle disabled. -/
def cfgAllOff : Config :=
  { scrape :=
      { page_title := false, canonical_url := false, meta_tags := false
        post_id := false, categories := false, wp_tags := false
        entry_title := false, entry_datetime := false, author := false
        comments_count := false, release_number := false, game_title_line := false
        genres_tags := false, companies := false, languages := false
        original_size := false, repack_size := false, spoiler_sections := false
        download_section_presence := false, torrent_file := false
        torrent_file_name := false, torrent_file_link := false, magnet := false }
    links := { domain_counts := false, ignore_magnet := false }
    profile := { wordpress_release_layout := false, spoiler_denylist := [] } }

/-- Document tree with no matching elements for any selector. -/
def emptyDoc : Doc :=
  { headTitle := none, canonicalHref := none, metas := [], article := none
    catLinkTexts := [], entryTitleText := none, entryDate := none
    authorText := none, commentsText := none, contentH3s := [], contentParas := []
    spoilers := [], anchors := [] }

/-- Document whose category links read "b" then "a" in document order. -/
def docCats : Doc := { emptyDoc with catLinkTexts := [str "b", str "a"] }

/-- Document with a canonical link element whose `href` attribute is the
empty string. -/
def docCanon : Doc := { emptyDoc with canonicalHref := some [] }

/-- Anchors of the link-classification scenario: one magnet link, one
torrent-file link and one plain page link on the same host. -/
def scenarioAnchors : List Anchor :=
  [{ href := str "magnet:?xt=abc", text := str "m" },
   { href := str "https://host-a/file.torrent", text := str "Torrent File" },
   { href := str "https://host-a/page", text := str "p" }]

theorem mem_of_getLast? : ∀ {l : Str} {c : Char}, l.getLast? = some c → c ∈ l := by
  intro l
  induction l with
  | nil => intro c h; simp at h
  | cons a t ih =>
    intro c h
    cases t with
    | nil => simp_all
    | cons b u =>
      rw [List.getLast?_cons_cons] at h
      exact List.mem_cons_of_mem a (ih h)

theorem splitWsAux_words :
    ∀ (l acc : Str), (∀ c ∈ acc, isWs c = false) →
      ∀ w ∈ splitWsAux l acc, w ≠ [] ∧ ∀ c ∈ w, isWs c = false := by
  intro l
  induction l with
  | nil =>
    intro acc hacc w hw
    by_cases h : acc = []
    · simp [splitWsAux, h] at hw
    · simp only [splitWsAux, if_neg h, List.mem_singleton] at hw
      subst hw
      refine ⟨by simpa using h, ?_⟩
      intro c hc
      exact hacc c (List.mem_reverse.mp hc)
  | cons c t ih =>
    intro acc hacc w hw
    cases hws : isWs c with
    | true =>
      by_cases h : acc = []
      · simp only [splitWsAux, hws, if_pos, h, if_true] at hw
        exact ih [] (by simp) w hw
      · simp only [splitWsAux, hws, if_pos, if_neg h, List.mem_cons] at hw
        rcases hw with hw | hw
        · subst hw
          refine ⟨by simpa using h, ?_⟩
          intro x hx
          exact hacc x (List.mem_reverse.mp hx)
        · exact ih [] (by simp) w hw
    | false =>
      simp only [splitWsAux, hws, Bool.false_eq_true, if_false] at hw
      refine ih (c :: acc) ?_ w hw
      intro x hx
      rcases List.mem_cons.mp hx with hx | hx
      · subst hx; exact hws
      · exact hacc x hx

theorem splitWsAux_push :
    ∀ (w : Str), (∀ c ∈ w, isWs c = false) →
      ∀ (t acc : Str), splitWsAux (w ++ t) acc = splitWsAux t (w.reverse ++ acc) := by
  intro w
  induction w with
  | nil => intro _ t acc; simp
  | cons c w ih =>
    intro hw t acc
    have hc : isWs c = false := hw c (List.mem_cons_self c w)
    have hw2 : ∀ x ∈ w, isWs x = false := fun x hx => hw x (List.mem_cons_of_mem c hx)
    calc splitWsAux ((c :: w) ++ t) acc
        = splitWsAux (w ++ t) (c :: acc) := by
          show (if isWs c = true then _ else splitWsAux (w ++ t) (c :: acc)) = _
          rw [if_neg (by simp [hc])]
      _ = splitWsAux t (w.reverse ++ (c :: acc)) := ih hw2 t (c :: acc)
      _ = splitWsAux t ((c :: w).reverse ++ acc) := by
          simp [List.reverse_cons, List.append_assoc]

theorem splitWs_joinWords :
    ∀ (ws : List Str), (∀ w ∈ ws, w ≠ [] ∧ ∀ c ∈ w, isWs c = false) →
      splitWs (joinWords ws) = ws := by
  intro ws
  induction ws with
  | nil => intro _; rfl
  | cons w rest ih =>
    intro hgood
    have hw := hgood w (List.mem_cons_self w rest)
    cases rest with
    | nil =>
      show splitWsAux w [] = [w]
      have : splitWsAux (w ++ []) [] = splitWsAux [] (w.reverse ++ []) :=
        splitWsAux_push w hw.2 [] []
      simp only [List.append_nil] at this
      rw [this]
      simp [splitWsAux, hw.1]
    | cons v vs =>
      have hrest : ∀ u ∈ v :: vs, u ≠ [] ∧ ∀ c ∈ u, isWs c = false :=
        fun u hu => hgood u (List.mem_cons_of_mem w hu)
      show splitWsAux (w ++ ' ' :: joinWords (v :: vs)) [] = w :: v :: vs
      rw [splitWsAux_push w hw.2]
      simp only [List.append_nil]
      have hrev : w.reverse ≠ [] := by simpa using hw.1
      show (if isWs ' ' = true then
          if w.reverse = [] then splitWsAux (joinWords (v :: vs)) []
          else w.reverse.reverse :: splitWsAux (joinWords (v :: vs)) []
        else _) = w :: v :: vs
      rw [if_pos (show isWs ' ' = true by rfl), if_neg hrev, List.reverse_reverse]
      rw [show splitWsAux (joinWords (v :: vs)) [] = splitWs (joinWords (v :: vs)) from rfl,
        ih hrest]

theorem chain'_of_allNonWs :
    ∀ (w : Str), (∀ c ∈ w, isWs c = false) →
      List.Chain' (fun a b => isWs a = false ∨ isWs b = false) w := by
  intro w
  induction w with
  | nil => intro _; simp
  | cons a u ih =>
    intro h
    rw [List.chain'_cons']
    exact ⟨fun b _ => Or.inl (h a (List.mem_cons_self a u)),
      ih (fun c hc => h c (List.mem_cons_of_mem a hc))⟩

theorem joinWords_ne_nil :
    ∀ (w : Str) (rest : List Str), w ≠ [] → joinWords (w :: rest) ≠ [] := by
  intro w rest hw
  cases rest with
  | nil => exact hw
  | cons v vs =>
    show w ++ ' ' :: joinWords (v :: vs) ≠ []
    simp

theorem joinWords_noRuns :
    ∀ (ws : List Str), (∀ w ∈ ws, w ≠ [] ∧ ∀ c ∈ w, isWs c = false) →
      (∀ c, (joinWords ws).head? = some c → isWs c = false) ∧
      (∀ c, (joinWords ws).getLast? = some c → isWs c = false) ∧
      List.Chain' (fun a b => isWs a = false ∨ isWs b = false) (joinWords ws) := by
  intro ws
  induction ws with
  | nil =>
    exact fun _ => ⟨fun c h => by simp [joinWords] at h,
      fun c h => by simp [joinWords] at h, by simp [joinWords]⟩
  | cons w rest ih =>
    intro hgood
    have hw := hgood w (List.mem_cons_self w rest)
    cases rest with
    | nil =>
      refine ⟨?_, ?_, chain'_of_allNonWs w hw.2⟩
      · intro c h
        cases w with
        | nil => exact absurd rfl hw.1
        | cons a u => exact (Option.some.inj h) ▸ hw.2 a (List.mem_cons_self a u)
      · intro c h
        exact hw.2 c (mem_of_getLast? h)
    | cons v vs =>
      have hrest : ∀ u ∈ v :: vs, u ≠ [] ∧ ∀ c ∈ u, isWs c = false :=
        fun u hu => hgood u (List.mem_cons_of_mem w hu)
      have ihr := ih hrest
      have hv := hrest v (List.mem_cons_self v vs)
      have hJne : joinWords (v :: vs) ≠ [] := joinWords_ne_nil v vs hv.1
      show (∀ c, (w ++ ' ' :: joinWords (v :: vs)).head? = some c → isWs c = false) ∧
        (∀ c, (w ++ ' ' :: joinWords (v :: vs)).getLast? = some c → isWs c = false) ∧
        List.Chain' (fun a b => isWs a = false ∨ isWs b = false)
          (w ++ ' ' :: joinWords (v :: vs))
      refine ⟨?_, ?_, ?_⟩
      · intro c h
        cases w with
        | nil => exact absurd rfl hw.1
        | cons a u =>
          rw [List.cons_append, List.head?_cons] at h
          exact (Option.some.inj h) ▸ hw.2 a (List.mem_cons_self a u)
      · intro c h
        rw [List.getLast?_append_cons] at h
        have h2 : (joinWords (v :: vs)).getLast? = some c := by
          cases hJ : joinWords (v :: vs) with
          | nil => exact absurd hJ hJne
          | cons b bs => rw [hJ] at h; rwa [List.getLast?_cons_cons] at h
        exact ihr.2.1 c h2
      · rw [List.chain'_append]
        refine ⟨chain'_of_allNonWs w hw.2, ?_, ?_⟩
        · rw [List.chain'_cons']
          exact ⟨fun y hy => Or.inr (ihr.1 y hy), ihr.2.2⟩
        · intro x hx y _
          exact Or.inl (hw.2 x (mem_of_getLast? hx))

theorem normalize_ws_words (s : Str) :
    ∀ w ∈ splitWs s, w ≠ [] ∧ ∀ c ∈ w, isWs c = false :=
  splitWsAux_words s [] (by simp)

/-- The claim that `normalize_ws` is total and idempotent and its output
has no leading, trailing or repeated internal whitespace: the output of
`normalize_ws` is a fixed point, its first and last characters are never
whitespace, and no two adjacent characters are both whitespace. -/
theorem normalize_ws_idempotent_noRuns (x : Str) :
    normalize_ws (normalize_ws x) = normalize_ws x ∧
    (∀ c, (normalize_ws x).head? = some c → isWs c = false) ∧
    (∀ c, (normalize_ws x).getLast? = some c → isWs c = false) ∧
    List.Chain' (fun a b => isWs a = false ∨ isWs b = false) (normalize_ws x) := by
  refine ⟨?_, joinWords_noRuns (splitWs x) (normalize_ws_words x)⟩
  show joinWords (splitWs (joinWords (splitWs x))) = joinWords (splitWs x)
  rw [splitWs_joinWords (splitWs x) (normalize_ws_words x)]

theorem normalize_ws_idempotent_noRuns_witness : isWs 'a' = false :=
  (normalize_ws_idempotent_noRuns (str "  a  b ")).2.1 'a' (by decide)

theorem findSub_eq_some :
    ∀ (l pat : Str) (i : Nat), findSub l pat = some i →
      pat <+: l.drop i ∧ ∀ j, j < i → ¬ pat <+: l.drop j := by
  intro l
  induction l with
  | nil =>
    intro pat i h
    by_cases hp : pat.isPrefixOf ([] : Str) = true
    · simp only [findSub, if_pos hp, Option.some.injEq] at h
      subst h
      exact ⟨List.isPrefixOf_iff_prefix.mp hp, fun j hj => absurd hj (Nat.not_lt_zero j)⟩
    · simp [findSub, hp] at h
  | cons c t ih =>
    intro pat i h
    by_cases hp : pat.isPrefixOf (c :: t) = true
    · simp only [findSub, if_pos hp, Option.some.injEq] at h
      subst h
      exact ⟨List.isPrefixOf_iff_prefix.mp hp, fun j hj => absurd hj (Nat.not_lt_zero j)⟩
    · simp only [findSub, if_neg hp, Option.map_eq_some'] at h
      obtain ⟨i', hi', rfl⟩ := h
      have hih := ih pat i' hi'
      refine ⟨hih.1, ?_⟩
      intro j hj
      cases j with
      | zero =>
        intro hcontra
        exact hp (List.isPrefixOf_iff_prefix.mpr (by simpa using hcontra))
      | succ j =>
        exact hih.2 j (Nat.lt_of_succ_lt_succ hj)

theorem findSub_eq_none :
    ∀ (l pat : Str), findSub l pat = none → ∀ j, ¬ pat <+: l.drop j := by
  intro l
  induction l with
  | nil =>
    intro pat h j
    by_cases hp : pat.isPrefixOf ([] : Str) = true
    · simp [findSub, hp] at h
    · intro hcontra
      exact hp (List.isPrefixOf_iff_prefix.mpr (by simpa using hcontra))
  | cons c t ih =>
    intro pat h j
    by_cases hp : pat.isPrefixOf (c :: t) = true
    · simp [findSub, hp] at h
    · simp only [findSub, if_neg hp, Option.map_eq_none'] at h
      cases j with
      | zero =>
        intro hcontra
        exact hp (List.isPrefixOf_iff_prefix.mpr (by simpa using hcontra))
      | succ j => exact ih pat h j

theorem findSub_iff_firstOccur (l pat : Str) (i : Nat) :
    findSub l pat = some i ↔ FirstOccur pat l i := by
  constructor
  · intro h
    have hc := findSub_eq_some l pat i h
    exact ⟨hc.1, fun j hj => hc.2 j hj⟩
  · intro hf
    cases h : findSub l pat with
    | none => exact absurd hf.1 (findSub_eq_none l pat h i)
    | some i' =>
      have hc := findSub_eq_some l pat i' h
      rcases Nat.lt_trichotomy i i' with hlt | heq | hgt
      · exact absurd hf.1 (hc.2 i hlt)
      · rw [heq]
      · exact absurd hc.1 (hf.2 i' hgt)

theorem containsSub_iff (text pat : Str) : containsSub text pat = true ↔ pat <:+: text := by
  constructor
  · intro h
    rw [containsSub, Option.isSome_iff_exists] at h
    obtain ⟨i, hi⟩ := h
    exact ((findSub_eq_some text pat i hi).1).isInfix.trans (List.drop_suffix i text).isInfix
  · intro h
    obtain ⟨s, t, hst⟩ := h
    cases hfs : findSub text pat with
    | none =>
      exfalso
      refine findSub_eq_none text pat hfs s.length ?_
      rw [← hst, List.append_assoc, List.drop_left]
      exact ⟨t, rfl⟩
    | some i => simp [containsSub, hfs]

theorem segEndFrom_spec (tail : Str) (start : Nat) :
    ∀ (nls : List Str) (init : Nat),
      segEndFrom tail start nls init ≤ init ∧
      (∀ nl ∈ nls, ∀ p, findSub tail nl = some p →
        segEndFrom tail start nls init ≤ start + p) ∧
      (segEndFrom tail start nls init = init ∨
        ∃ nl ∈ nls, ∃ p, findSub tail nl = some p ∧
          segEndFrom tail start nls init = start + p) := by
  intro nls
  induction nls with
  | nil =>
    intro init
    exact ⟨Nat.le_refl init, fun nl h => absurd h (List.not_mem_nil nl), Or.inl rfl⟩
  | cons nl rest ih =>
    intro init
    have hstep : ∀ init0, segEndFrom tail start (nl :: rest) init0 =
        segEndFrom tail start rest
          (match findSub tail nl with
           | some p => min init0 (start + p)
           | none => init0) := fun _ => rfl
    cases hfs : findSub tail nl with
    | none =>
      rw [hstep init, hfs]
      have := ih init
      refine ⟨this.1, ?_, ?_⟩
      · intro nl0 hmem p hp
        rcases List.mem_cons.mp hmem with h0 | h0
        · subst h0; rw [hfs] at hp; exact absurd hp (by simp)
        · exact this.2.1 nl0 h0 p hp
      · rcases this.2.2 with h0 | ⟨nl0, hm, p0, hp0, he⟩
        · exact Or.inl h0
        · exact Or.inr ⟨nl0, List.mem_cons_of_mem nl hm, p0, hp0, he⟩
    | some p =>
      rw [hstep init, hfs]
      have := ih (min init (start + p))
      refine ⟨Nat.le_trans this.1 (Nat.min_le_left _ _), ?_, ?_⟩
      · intro nl0 hmem p0 hp0
        rcases List.mem_cons.mp hmem with h0 | h0
        · subst h0
          rw [hfs] at hp0
          cases hp0
          exact Nat.le_trans this.1 (Nat.min_le_right _ _)
        · exact this.2.1 nl0 h0 p0 hp0
      · rcases this.2.2 with h0 | ⟨nl0, hm, p0, hp0, he⟩
        · rcases Nat.le_total init (start + p) with hle | hle
          · exact Or.inl (h0.trans (Nat.min_eq_left hle))
          · exact Or.inr ⟨nl, List.mem_cons_self nl rest, p, hfs,
              h0.trans (Nat.min_eq_right hle)⟩
        · exact Or.inr ⟨nl0, List.mem_cons_of_mem nl hm, p0, hp0, he⟩

theorem segEnd_spec (text : Str) (start : Nat) (nls : List Str) :
    SegEndSpec text start nls (segEnd text start nls) := by
  have h := segEndFrom_spec (text.drop start) start nls text.length
  refine ⟨h.1, ?_, ?_⟩
  · intro nl hmem p hp
    exact h.2.1 nl hmem p ((findSub_iff_firstOccur _ nl p).mpr hp)
  · rcases h.2.2 with h0 | ⟨nl, hm, p, hp, he⟩
    · exact Or.inl h0
    · exact Or.inr ⟨nl, hm, p, (findSub_iff_firstOccur _ nl p).mp hp, he⟩

theorem segEndSpec_unique {text : Str} {start : Nat} {nls : List Str} {e e' : Nat}
    (h : SegEndSpec text start nls e) (h' : SegEndSpec text start nls e') : e = e' := by
  have hle : e ≤ e' := by
    rcases h'.2.2 with h0 | ⟨nl, hm, p, hp, he⟩
    · exact h0 ▸ h.1
    · exact he ▸ h.2.1 nl hm p hp
  have hge : e' ≤ e := by
    rcases h.2.2 with h0 | ⟨nl, hm, p, hp, he⟩
    · exact h0 ▸ h'.1
    · exact he ▸ h'.2.1 nl hm p hp
  exact Nat.le_antisymm hle hge

theorem trimStr_infix (s : Str) : trimStr s <:+: s := by
  have h1 : s.dropWhile isWs <:+ s := List.dropWhile_suffix isWs
  have h2 : (s.dropWhile isWs).reverse.dropWhile isWs <:+ (s.dropWhile isWs).reverse :=
    List.dropWhile_suffix isWs
  have h3 := List.reverse_prefix.mpr h2
  rw [List.reverse_reverse] at h3
  exact h3.isInfix.trans h1.isInfix

/-- The claim that the label segmenter returns a value only when the label
occurs, that the value is the trimmed text between the end of the first
label occurrence and the least following next-label occurrence (text end
when none occurs), that an empty trimmed slice yields no value, and that
the value contains no occurrence of any next label. -/
theorem capture_between_labels_spec (text label : Str) (nls : List Str) :
    (∀ v, capture_between_labels text label nls = some v →
      label <:+: text ∧
      ∃ i e, FirstOccur label text i ∧ SegEndSpec text (i + label.length) nls e ∧
        v = trimStr ((text.drop (i + label.length)).take (e - (i + label.length))) ∧
        v ≠ [] ∧ ∀ nl ∈ nls, ¬ nl <:+: v) ∧
    (∀ i e, FirstOccur label text i → SegEndSpec text (i + label.length) nls e →
      trimStr ((text.drop (i + label.length)).take (e - (i + label.length))) = [] →
      capture_between_labels text label nls = none) := by
  constructor
  · intro v hv
    rw [capture_between_labels] at hv
    cases hfs : findSub text label with
    | none => rw [hfs] at hv; exact absurd hv (by simp)
    | some i =>
      rw [hfs] at hv
      simp only at hv
      by_cases hval :
          trimStr ((text.drop (i + label.length)).take
            (segEnd text (i + label.length) nls - (i + label.length))) = []
      · rw [if_pos hval] at hv; exact absurd hv (by simp)
      · rw [if_neg hval] at hv
        have hveq := (Option.some.inj hv).symm
        have hfo := (findSub_iff_firstOccur text label i).mp hfs
        have hocc : label <:+: text :=
          (hfo.1).isInfix.trans (List.drop_suffix i text).isInfix
        refine ⟨hocc, i, segEnd text (i + label.length) nls, hfo,
          segEnd_spec text (i + label.length) nls, hveq, hveq ▸ hval, ?_⟩
        intro nl hmem hinf
        have hse := segEnd_spec text (i + label.length) nls
        set start := i + label.length with hstart
        set e := segEnd text start nls with he
        set tail := text.drop start with htail
        by_cases hnl : nl = []
        · subst hnl
          have hfo0 : FirstOccur [] tail 0 :=
            ⟨List.nil_prefix, fun j hj => absurd hj (Nat.not_lt_zero j)⟩
          have hle : e ≤ start + 0 := hse.2.1 [] hmem 0 hfo0
          have hm0 : e - start = 0 := Nat.sub_eq_zero_of_le (by omega)
          rw [hm0, List.take_zero] at hval
          exact hval rfl
        · have hnlpos : 0 < nl.length := List.length_pos.mpr hnl
          have hvinf : nl <:+: tail.take (e - start) :=
            hinf.trans (hveq ▸ trimStr_infix _)
          obtain ⟨s1, s2, hs⟩ := hvinf
          have hlen : s1.length + nl.length ≤ e - start := by
            have h1 : (tail.take (e - start)).length ≤ e - start := by
              rw [List.length_take]; exact Nat.min_le_left _ _
            rw [← hs] at h1
            simp only [List.length_append] at h1
            omega
          have htaildecomp : (s1 ++ nl ++ s2) ++ tail.drop (e - start) = tail := by
            rw [hs]; exact List.take_append_drop (e - start) tail
          have h4 : s1 ++ (nl ++ (s2 ++ tail.drop (e - start))) = tail := by
            rw [← List.append_assoc, ← List.append_assoc]
            exact htaildecomp
          have h5 : tail.drop s1.length = nl ++ (s2 ++ tail.drop (e - start)) := by
            conv_lhs => rw [← h4]
            rw [List.drop_left]
          have hprefix : nl <+: tail.drop s1.length := ⟨s2 ++ tail.drop (e - start), h5.symm⟩
          cases hfs2 : findSub tail nl with
          | none => exact absurd hprefix (findSub_eq_none tail nl hfs2 s1.length)
          | some p =>
            have hchar := findSub_eq_some tail nl p hfs2
            have hple : p ≤ s1.length := by
              by_contra hgt
              exact hchar.2 s1.length (by omega) hprefix
            have he_le : e ≤ start + p :=
              hse.2.1 nl hmem p ((findSub_iff_firstOccur tail nl p).mp hfs2)
            omega
  · intro i e hfo hsegspec htrim
    have hfs : findSub text label = some i := (findSub_iff_firstOccur text label i).mpr hfo
    have he : e = segEnd text (i + label.length) nls :=
      segEndSpec_unique hsegspec (segEnd_spec text (i + label.length) nls)
    rw [capture_between_labels, hfs]
    simp only
    rw [if_pos (he ▸ htrim)]

theorem capture_between_labels_spec_witness :
    (str "Companies:") <:+: (str "Tags: A Companies: X Languages: E") :=
  ((capture_between_labels_spec (str "Tags: A Companies: X Languages: E")
    (str "Companies:") [str "Languages:"]).1 (str "X") (by decide)).1

theorem okProj_ok {cfg : Config} {pr : Str × ReadOutcome} {doc : ParsedDocument}
    (h : parse_one pr.1 pr.2 cfg = Except.ok doc) : okProj cfg pr = some doc := by
  rw [okProj, h]; rfl

theorem okProj_error {cfg : Config} {pr : Str × ReadOutcome} {e : Str}
    (h : parse_one pr.1 pr.2 cfg = Except.error e) : okProj cfg pr = none := by
  rw [okProj, h]; rfl

theorem errProj_ok {cfg : Config} {pr : Str × ReadOutcome} {doc : ParsedDocument}
    (h : parse_one pr.1 pr.2 cfg = Except.ok doc) : errProj cfg pr = none := by
  rw [errProj, h]

theorem errProj_error {cfg : Config} {pr : Str × ReadOutcome} {e : Str}
    (h : parse_one pr.1 pr.2 cfg = Except.error e) : errProj cfg pr = some ⟨pr.1, e⟩ := by
  rw [errProj, h]

theorem parse_many_foldl (cfg : Config) :
    ∀ (files : List (Str × ReadOutcome)) (ds : List ParsedDocument)
      (es : List ParseErrorEntry),
      files.foldl (parseStep cfg) (ds, es) =
        (ds ++ files.filterMap (okProj cfg), es ++ files.filterMap (errProj cfg)) := by
  intro files
  induction files with
  | nil => intro ds es; simp
  | cons pr rest ih =>
    intro ds es
    rw [List.foldl_cons]
    cases h : parse_one pr.1 pr.2 cfg with
    | ok doc =>
      rw [show parseStep cfg (ds, es) pr = (ds ++ [doc], es) by rw [parseStep, h]]
      rw [ih, List.filterMap_cons, List.filterMap_cons, okProj_ok h, errProj_ok h]
      simp
    | error e =>
      rw [show parseStep cfg (ds, es) pr = (ds, es ++ [⟨pr.1, e⟩]) by rw [parseStep, h]]
      rw [ih, List.filterMap_cons, List.filterMap_cons, okProj_error h, errProj_error h]
      simp

theorem parse_many_ok_err_length (cfg : Config) :
    ∀ (files : List (Str × ReadOutcome)),
      (files.filterMap (okProj cfg)).length + (files.filterMap (errProj cfg)).length =
        files.length := by
  intro files
  induction files with
  | nil => rfl
  | cons pr rest ih =>
    rw [List.filterMap_cons, List.filterMap_cons, List.length_cons]
    cases h : parse_one pr.1 pr.2 cfg with
    | ok doc =>
      rw [okProj_ok h, errProj_ok h]
      simp only [List.length_cons]
      omega
    | error e =>
      rw [okProj_error h, errProj_error h]
      simp only [List.length_cons]
      omega

/-- The claim that the batch runner sends each input to exactly one
terminal state in input order — the document list and the error list are
the two filtered projections of the per-file outcomes — and that the
stats are the input count and the two list lengths, which therefore add
up to the input count. -/
theorem parse_many_state_machine (files : List (Str × ReadOutcome)) (cfg : Config) :
    (parse_many files cfg).documents = files.filterMap (okProj cfg) ∧
    (parse_many files cfg).errors = files.filterMap (errProj cfg) ∧
    (parse_many files cfg).stats.input_count = files.length ∧
    (parse_many files cfg).stats.parsed_ok = (parse_many files cfg).documents.length ∧
    (parse_many files cfg).stats.parsed_err = (parse_many files cfg).errors.length ∧
    (parse_many files cfg).stats.parsed_ok + (parse_many files cfg).stats.parsed_err =
      (parse_many files cfg).stats.input_count := by
  have hfold := parse_many_foldl cfg files [] []
  simp only [List.nil_append] at hfold
  refine ⟨?_, ?_, rfl, ?_, ?_, ?_⟩
  · rw [parse_many]; simp only [hfold]
  · rw [parse_many]; simp only [hfold]
  · rw [parse_many]
  · rw [parse_many]
  · rw [parse_many]
    simp only [hfold]
    exact parse_many_ok_err_length cfg files

/-- The claim that both extraction variants always succeed, and hence that
every batch error entry is exactly the read or UTF-8 decode failure of its
input, never a failure of extraction: the error list equals the projection
of the read outcomes, and every successfully read input yields a
document. -/
theorem parse_variants_never_fail (d : Doc) (files : List (Str × ReadOutcome))
    (cfg : Config) :
    parse_wordpress_release d cfg = Except.ok (assemble_wordpress_release d cfg) ∧
    parse_generic d cfg = Except.ok (assemble_generic d cfg) ∧
    (parse_many files cfg).errors =
      files.filterMap (fun pr =>
        match pr.2 with
        | .error e => some ⟨pr.1, e⟩
        | .ok _ => none) ∧
    (parse_many files cfg).documents.length =
      (files.filter (fun pr => pr.2.isOk)).length := by
  refine ⟨rfl, rfl, ?_, ?_⟩
  · rw [(parse_many_state_machine files cfg).2.1]
    apply List.filterMap_congr
    rintro ⟨p, r⟩ _
    cases r with
    | error e => exact @errProj_error cfg (p, Except.error e) e rfl
    | ok f => exact @errProj_ok cfg (p, Except.ok f) _ rfl
  · rw [(parse_many_state_machine files cfg).1]
    induction files with
    | nil => rfl
    | cons pr rest ih =>
      obtain ⟨p, r⟩ := pr
      rw [List.filterMap_cons, List.filter_cons]
      cases r with
      | error e =>
        rw [@okProj_error cfg (p, Except.error e) e rfl]
        rw [show ((p, (Except.error e : ReadOutcome)).2.isOk : Bool) = false from rfl]
        simpa using ih
      | ok f =>
        rw [@okProj_ok cfg (p, Except.ok f) _ rfl]
        rw [show ((p, (Except.ok f : ReadOutcome)).2.isOk : Bool) = true from rfl]
        simpa using ih

theorem strLeB_refl : ∀ a : Str, strLeB a a = true := by
  intro a
  induction a with
  | nil => rfl
  | cons x s ih => simp [strLeB, lt_irrefl, ih]

theorem strLeB_total : ∀ a b : Str, strLeB a b = true ∨ strLeB b a = true := by
  intro a
  induction a with
  | nil => intro b; exact Or.inl rfl
  | cons x s ih =>
    intro b
    cases b with
    | nil => exact Or.inr rfl
    | cons y t =>
      rcases lt_trichotomy x y with h | h | h
      · exact Or.inl (by simp [strLeB, h])
      · subst h
        rcases ih t with h2 | h2
        · exact Or.inl (by simp [strLeB, lt_irrefl, h2])
        · exact Or.inr (by simp [strLeB, lt_irrefl, h2])
      · exact Or.inr (by simp [strLeB, h])

theorem strLeB_trans :
    ∀ a b c : Str, strLeB a b = true → strLeB b c = true → strLeB a c = true := by
  intro a
  induction a with
  | nil => intro b c _ _; rfl
  | cons x s ih =>
    intro b c hab hbc
    cases b with
    | nil => simp [strLeB] at hab
    | cons y t =>
      cases c with
      | nil => simp [strLeB] at hbc
      | cons z u =>
        by_cases hxy : x < y
        · by_cases hyz : y < z
          · simp [strLeB, lt_trans hxy hyz]
          · by_cases hzy : z < y
            · simp [strLeB, hyz, hzy] at hbc
            · have heq : y = z := le_antisymm (not_lt.mp hzy) (not_lt.mp hyz)
              subst heq
              simp [strLeB, hxy]
        · by_cases hyx : y < x
          · simp [strLeB, hxy, hyx] at hab
          · have heq : x = y := le_antisymm (not_lt.mp hyx) (not_lt.mp hxy)
            subst heq
            simp only [strLeB, lt_irrefl, if_false] at hab
            by_cases hxz : x < z
            · simp [strLeB, hxz]
            · by_cases hzx : z < x
              · simp [strLeB, hxz, hzx] at hbc
              · have heq2 : x = z := le_antisymm (not_lt.mp hzx) (not_lt.mp hxz)
                subst heq2
                simp only [strLeB, lt_irrefl, if_false] at hbc ⊢
                exact ih t u hab hbc

theorem strLeB_antisymm :
    ∀ a b : Str, strLeB a b = true → strLeB b a = true → a = b := by
  intro a
  induction a with
  | nil =>
    intro b _ hba
    cases b with
    | nil => rfl
    | cons y t => simp [strLeB] at hba
  | cons x s ih =>
    intro b hab hba
    cases b with
    | nil => simp [strLeB] at hab
    | cons y t =>
      by_cases hxy : x < y
      · simp [strLeB, hxy, asymm hxy] at hba
      · by_cases hyx : y < x
        · simp [strLeB, hxy, hyx] at hab
        · have heq : x = y := le_antisymm (not_lt.mp hyx) (not_lt.mp hxy)
          subst heq
          simp only [strLeB, lt_irrefl, if_false] at hab hba
          rw [ih t hab hba]

theorem mem_insertSorted :
    ∀ (x : Str) (l : List Str) (y : Str), y ∈ insertSorted x l ↔ y = x ∨ y ∈ l := by
  intro x l
  induction l with
  | nil => intro y; simp [insertSorted]
  | cons z t ih =>
    intro y
    by_cases h : strLeB x z = true
    · rw [insertSorted, if_pos h]
      simp only [List.mem_cons]
      try tauto
    · rw [insertSorted, if_neg h]
      simp only [List.mem_cons, ih y]
      try tauto

theorem sorted_insertSorted :
    ∀ (x : Str) (l : List Str), List.Sorted strLe l →
      List.Sorted strLe (insertSorted x l) := by
  intro x l
  induction l with
  | nil => intro _; simp [insertSorted, List.sorted_singleton]
  | cons z t ih =>
    intro h
    rw [List.sorted_cons] at h
    by_cases hxz : strLeB x z = true
    · rw [insertSorted, if_pos hxz, List.sorted_cons]
      refine ⟨?_, List.sorted_cons.mpr h⟩
      intro b hb
      rcases List.mem_cons.mp hb with hb | hb
      · subst hb; exact hxz
      · exact strLeB_trans x z b hxz (h.1 b hb)
    · rw [insertSorted, if_neg hxz, List.sorted_cons]
      refine ⟨?_, ih h.2⟩
      intro b hb
      rcases (mem_insertSorted x t b).mp hb with hb | hb
      · rw [hb]
        rcases strLeB_total x z with h2 | h2
        · exact absurd h2 hxz
        · exact h2
      · exact h.1 b hb

theorem sorted_sortStr : ∀ l : List Str, List.Sorted strLe (sortStr l) := by
  intro l
  induction l with
  | nil => simp [sortStr]
  | cons x t ih => exact sorted_insertSorted x (sortStr t) ih

theorem mem_dedupAdj : ∀ (l : List Str) (x : Str), x ∈ dedupAdj l → x ∈ l := by
  intro l
  induction l with
  | nil => intro x h; exact absurd h (List.not_mem_nil x)
  | cons a t ih =>
    intro x h
    cases t with
    | nil => exact h
    | cons b u =>
      by_cases hab : a = b
      · rw [dedupAdj, if_pos hab] at h
        exact List.mem_cons_of_mem a (ih x h)
      · rw [dedupAdj, if_neg hab] at h
        rcases List.mem_cons.mp h with h | h
        · exact h ▸ List.mem_cons_self a (b :: u)
        · exact List.mem_cons_of_mem a (ih x h)

theorem sorted_dedupAdj :
    ∀ l : List Str, List.Sorted strLe l → List.Sorted strLt (dedupAdj l) := by
  intro l
  induction l with
  | nil => intro _; simp [dedupAdj]
  | cons a t ih =>
    intro h
    rw [List.sorted_cons] at h
    cases t with
    | nil => simp [dedupAdj, List.sorted_singleton]
    | cons b u =>
      by_cases hab : a = b
      · rw [dedupAdj, if_pos hab]
        exact ih h.2
      · rw [dedupAdj, if_neg hab, List.sorted_cons]
        refine ⟨?_, ih h.2⟩
        intro y hy
        have hyin : y ∈ b :: u := mem_dedupAdj (b :: u) y hy
        have hle : strLeB a y = true := h.1 y hyin
        refine ⟨hle, ?_⟩
        intro hay
        subst hay
        rcases List.mem_cons.mp hyin with hb | hu
        · exact hab hb
        · have h1 : strLeB b a = true := (List.sorted_cons.mp h.2).1 a hu
          have h2 : strLeB a b = true := h.1 b (List.mem_cons_self b u)
          exact hab (strLeB_antisymm a b h2 h1)

theorem sortedNodup_sortDedup (l : List Str) : SortedNodup (sortDedup l) := by
  have hlt := sorted_dedupAdj (sortStr l) (sorted_sortStr l)
  exact ⟨hlt.imp (fun h => h.1), hlt.imp (fun h => h.2)⟩

theorem sortedNodup_nil : SortedNodup [] := ⟨List.sorted_nil, List.nodup_nil⟩

/-- The amended claim that in every produced record the genre/tag list,
the wp-tag list, the torrent-name list, the torrent-link list and the
magnet-link list are sorted ascending with no repeats (the category list,
excluded here, is kept in document order without deduplication). -/
theorem output_lists_sorted (d : Doc) (cfg : Config) :
    (∀ p, (assemble_wordpress_release d cfg).post = some p → SortedNodup p.wp_tags) ∧
    (∀ r, (assemble_wordpress_release d cfg).release = some r → SortedNodup r.genres_tags) ∧
    SortedNodup (assemble_wordpress_release d cfg).torrent_file_names ∧
    SortedNodup (assemble_wordpress_release d cfg).torrent_file_links ∧
    SortedNodup (assemble_wordpress_release d cfg).magnet_links ∧
    (∀ p, (assemble_generic d cfg).post = some p → SortedNodup p.wp_tags) ∧
    (∀ r, (assemble_generic d cfg).release = some r → SortedNodup r.genres_tags) ∧
    SortedNodup (assemble_generic d cfg).torrent_file_names ∧
    SortedNodup (assemble_generic d cfg).torrent_file_links ∧
    SortedNodup (assemble_generic d cfg).magnet_links := by
  refine ⟨?_, ?_, ?_, ?_, ?_, ?_, ?_, ?_, ?_, ?_⟩
  · intro p hp
    simp only [assemble_wordpress_release, Option.some.injEq] at hp
    subst hp
    simp only [buildPost]
    repeat' split
    all_goals first
      | exact sortedNodup_sortDedup _
      | exact sortedNodup_nil
  · intro r hr
    simp only [assemble_wordpress_release, Option.some.injEq] at hr
    subst hr
    simp only [buildRelease, extract_anchor_texts_from_fragment]
    repeat' split
    all_goals first
      | exact sortedNodup_sortDedup _
      | exact sortedNodup_nil
  · simp only [assemble_wordpress_release, extract_torrent_and_magnet]
    repeat' split
    all_goals first
      | exact sortedNodup_sortDedup _
      | exact sortedNodup_nil
  · simp only [assemble_wordpress_release, extract_torrent_and_magnet]
    repeat' split
    all_goals first
      | exact sortedNodup_sortDedup _
      | exact sortedNodup_nil
  · simp only [assemble_wordpress_release, extract_torrent_and_magnet]
    repeat' split
    all_goals first
      | exact sortedNodup_sortDedup _
      | exact sortedNodup_nil
  · intro p hp
    simp only [assemble_generic] at hp
    exact absurd hp (by simp)
  · intro r hr
    simp only [assemble_generic] at hr
    exact absurd hr (by simp)
  · simp only [assemble_generic, extract_torrent_and_magnet]
    repeat' split
    all_goals first
      | exact sortedNodup_sortDedup _
      | exact sortedNodup_nil
  · simp only [assemble_generic, extract_torrent_and_magnet]
    repeat' split
    all_goals first
      | exact sortedNodup_sortDedup _
      | exact sortedNodup_nil
  · simp only [assemble_generic, extract_torrent_and_magnet]
    repeat' split
    all_goals first
      | exact sortedNodup_sortDedup _
      | exact sortedNodup_nil

theorem output_lists_sorted_witness :
    SortedNodup (buildPost docCats cfgAllOn).wp_tags :=
  (output_lists_sorted docCats cfgAllOn).1 (buildPost docCats cfgAllOn) rfl

theorem output_lists_sorted_counterexample :
    ((assemble_wordpress_release docCats cfgAllOn).post.map PostMeta.categories) =
      some [str "b", str "a"] ∧
    ¬ SortedNodup [str "b", str "a"] := by
  constructor
  · decide
  · intro h
    have := List.sorted_cons.mp h.1
    have h2 : strLeB (str "b") (str "a") = true :=
      this.1 (str "a") (List.mem_cons_self _ _)
    revert h2
    decide

/-- The amended claim about group presence and the toggle matrix: the page
group is present iff one of its three toggles is on; the post and release
groups are always present in the wordpress-release variant and always
absent in the generic variant; and each optional field or section is
populated only when its controlling toggle is on. -/
theorem toggle_matrix (d : Doc) (cfg : Config) :
    ((assemble_wordpress_release d cfg).page.isSome = (cfg.scrape.page_title ||
      cfg.scrape.canonical_url || cfg.scrape.meta_tags)) ∧
    (assemble_wordpress_release d cfg).post = some (buildPost d cfg) ∧
    (assemble_wordpress_release d cfg).release = some (buildRelease d cfg) ∧
    ((assemble_generic d cfg).page.isSome = (cfg.scrape.page_title ||
      cfg.scrape.canonical_url || cfg.scrape.meta_tags)) ∧
    (assemble_generic d cfg).post = none ∧
    (assemble_generic d cfg).release = none ∧
    (cfg.scrape.page_title = false →
      ∀ pg, buildPage d cfg = some pg → pg.title = none) ∧
    (cfg.scrape.canonical_url = false →
      ∀ pg, buildPage d cfg = some pg → pg.canonical_url = none) ∧
    (cfg.scrape.meta_tags = false →
      ∀ pg, buildPage d cfg = some pg → pg.meta = []) ∧
    (cfg.scrape.post_id = false → (buildPost d cfg).post_id = none) ∧
    (cfg.scrape.wp_tags = false → (buildPost d cfg).wp_tags = []) ∧
    (cfg.scrape.categories = false → (buildPost d cfg).categories = []) ∧
    (cfg.scrape.entry_title = false → (buildPost d cfg).entry_title = none) ∧
    (cfg.scrape.entry_datetime = false → (buildPost d cfg).entry_datetime = none) ∧
    (cfg.scrape.author = false → (buildPost d cfg).author = none) ∧
    (cfg.scrape.comments_count = false → (buildPost d cfg).comments_count = none) ∧
    (cfg.scrape.release_number = false → (buildRelease d cfg).release_number = none) ∧
    (cfg.scrape.game_title_line = false → (buildRelease d cfg).game_title_line = none) ∧
    (cfg.scrape.genres_tags = false → (buildRelease d cfg).genres_tags = []) ∧
    (cfg.scrape.companies = false → (buildRelease d cfg).companies = []) ∧
    (cfg.scrape.languages = false → (buildRelease d cfg).languages_raw = none) ∧
    (cfg.scrape.original_size = false → (buildRelease d cfg).original_size_raw = none) ∧
    (cfg.scrape.repack_size = false → (buildRelease d cfg).repack_size_raw = none) ∧
    (cfg.scrape.spoiler_sections = false →
      (assemble_wordpress_release d cfg).spoiler_sections = []) ∧
    (cfg.scrape.download_section_presence = false →
      (assemble_wordpress_release d cfg).download_section_headings = []) ∧
    (cfg.links.domain_counts = false →
      (assemble_wordpress_release d cfg).link_domain_counts = []) ∧
    (cfg.scrape.torrent_file = false →
      (assemble_wordpress_release d cfg).torrent_file = none) ∧
    (cfg.scrape.torrent_file_name = false →
      (assemble_wordpress_release d cfg).torrent_file_names = []) ∧
    (cfg.scrape.torrent_file_link = false →
      (assemble_wordpress_release d cfg).torrent_file_links = []) ∧
    (cfg.scrape.magnet = false →
      (assemble_wordpress_release d cfg).magnet_links = []) := by
  refine ⟨?_, rfl, rfl, ?_, rfl, rfl, ?_, ?_, ?_, ?_, ?_, ?_, ?_, ?_, ?_, ?_, ?_,
    ?_, ?_, ?_, ?_, ?_, ?_, ?_, ?_, ?_, ?_, ?_, ?_, ?_⟩
  · simp only [assemble_wordpress_release, buildPage]
    split <;> simp_all
  · simp only [assemble_generic, buildPage]
    split <;> simp_all
  · intro h pg hpg
    simp only [buildPage, h] at hpg
    split at hpg
    · simp only [Option.some.injEq] at hpg
      subst hpg
      simp [h]
    · exact absurd hpg (by simp)
  · intro h pg hpg
    simp only [buildPage, h] at hpg
    split at hpg
    · simp only [Option.some.injEq] at hpg
      subst hpg
      simp [h]
    · exact absurd hpg (by simp)
  · intro h pg hpg
    simp only [buildPage, h] at hpg
    split at hpg
    · simp only [Option.some.injEq] at hpg
      subst hpg
      simp [h]
    · exact absurd hpg (by simp)
  · intro h
    simp only [buildPost, h]
    split
    · split <;> simp_all
    · rfl
  · intro h
    simp [buildPost, h]
  · intro h
    simp [buildPost, h]
  · intro h
    simp [buildPost, h]
  · intro h
    simp [buildPost, h]
  · intro h
    simp [buildPost, h]
  · intro h
    simp [buildPost, h]
  · intro h
    simp [buildRelease, h]
  · intro h
    simp [buildRelease, h]
  · intro h
    simp only [buildRelease, h]
    split <;> [skip; rfl]
    split <;> simp_all
  · intro h
    simp only [buildRelease, h]
    split <;> [skip; rfl]
    split <;> simp_all
  · intro h
    simp only [buildRelease, h]
    split <;> [skip; rfl]
    split <;> simp_all
  · intro h
    simp only [buildRelease, h]
    split <;> [skip; rfl]
    split <;> simp_all
  · intro h
    simp only [buildRelease, h]
    split <;> [skip; rfl]
    split <;> simp_all
  · intro h
    simp [assemble_wordpress_release, h]
  · intro h
    simp [assemble_wordpress_release, h]
  · intro h
    simp [assemble_wordpress_release, h]
  · intro h
    simp [assemble_wordpress_release, h]
  · intro h
    simp [assemble_wordpress_release, h]
  · intro h
    simp [assemble_wordpress_release, h]
  · intro h
    simp [assemble_wordpress_release, h]

theorem toggle_matrix_witness :
    (buildPost emptyDoc cfgAllOff).author = none ∧
    (buildRelease emptyDoc cfgAllOff).companies = [] ∧
    (assemble_wordpress_release emptyDoc cfgAllOff).torrent_file = none := by
  obtain ⟨-, -, -, -, -, -, -, -, -, -, -, -, -, -, hauthor, -, -, -, -, hcomp,
    -, -, -, -, -, -, htf, -, -, -⟩ := toggle_matrix emptyDoc cfgAllOff
  exact ⟨hauthor rfl, hcomp rfl, htf rfl⟩

theorem toggle_matrix_counterexample :
    (assemble_wordpress_release emptyDoc cfgAllOff).post.isSome = true ∧
    (assemble_wordpress_release emptyDoc cfgAllOff).release.isSome = true ∧
    ((assemble_wordpress_release docCanon cfgAllOn).page.bind PageMeta.canonical_url) =
      some [] := by
  refine ⟨rfl, rfl, ?_⟩
  decide

/-- The claim that spoiler filtering denies a section by its lowercased
normalized title alone — any section with a denied title is discarded
whatever its body — and that a non-denied section is kept, with its
normalized title and body, iff both are non-empty; absent sub-elements
give empty strings, not failures. -/
theorem spoiler_filter_spec (title0 content0 : Option Str) (deny : List Str) :
    (deny.any (fun term =>
        containsSub (lowerStr ((title0.map normalize_ws).getD [])) (lowerStr term)) =
          true →
      ∀ c, processSpoiler deny ⟨title0, c⟩ = none) ∧
    (deny.any (fun term =>
        containsSub (lowerStr ((title0.map normalize_ws).getD [])) (lowerStr term)) =
          false →
      processSpoiler deny ⟨title0, content0⟩ =
        if (title0.map normalize_ws).getD [] ≠ [] ∧
            (content0.map normalize_ws).getD [] ≠ [] then
          some ⟨(title0.map normalize_ws).getD [], (content0.map normalize_ws).getD []⟩
        else none) := by
  constructor
  · intro h c
    simp only [processSpoiler, h, if_true]
  · intro h
    simp only [processSpoiler, h, Bool.false_eq_true, if_false]

theorem spoiler_filter_spec_witness :
    processSpoiler [str "direct links"]
      ⟨some (str "Direct  Links"), some (str "a magnet in the body")⟩ = none :=
  (spoiler_filter_spec (some (str "Direct  Links")) (some (str "x"))
    [str "direct links"]).1 (by decide) (some (str "a magnet in the body"))

theorem magnet_not_http (l : Str) (hm : (str "magnet:").isPrefixOf l = true) :
    ((str "http://").isPrefixOf l || (str "https://").isPrefixOf l) = false := by
  cases l with
  | nil => exact absurd hm (by decide)
  | cons c t =>
    have hc : ('m' == c) = true := by
      have h2 : ('m' == c && (str "agnet:").isPrefixOf t) = true := hm
      rw [Bool.and_eq_true] at h2
      exact h2.1
    have hc2 : c = 'm' := (beq_iff_eq.mp hc).symm
    subst hc2
    show (('h' == 'm' && (str "ttp://").isPrefixOf t) ||
      ('h' == 'm' && (str "ttps://").isPrefixOf t)) = false
    rw [show ('h' == 'm') = false from rfl]
    simp

theorem lookupCount_cons_eq {k0 : Str} {v0 : Nat} {t : List (Str × Nat)} {k : Str}
    (h : k0 = k) : lookupCount ((k0, v0) :: t) k = v0 := by
  have hf : List.find? (fun p => decide (p.1 = k)) ((k0, v0) :: t) = some (k0, v0) :=
    List.find?_cons_of_pos t (decide_eq_true h)
  rw [lookupCount, hf]
  rfl

theorem lookupCount_cons_ne {k0 : Str} {v0 : Nat} {t : List (Str × Nat)} {k : Str}
    (h : k0 ≠ k) : lookupCount ((k0, v0) :: t) k = lookupCount t k := by
  have hf : List.find? (fun p => decide (p.1 = k)) ((k0, v0) :: t) =
      List.find? (fun p => decide (p.1 = k)) t :=
    List.find?_cons_of_neg t (fun hp => h (of_decide_eq_true hp))
  rw [lookupCount, hf, lookupCount]

theorem lookupCount_eq_zero :
    ∀ (m : List (Str × Nat)) (k : Str), (∀ p ∈ m, p.1 ≠ k) → lookupCount m k = 0 := by
  intro m
  induction m with
  | nil => intro k _; rfl
  | cons kv t ih =>
    intro k h
    obtain ⟨k0, v0⟩ := kv
    have hne : k0 ≠ k := h (k0, v0) (List.mem_cons_self _ t)
    rw [lookupCount_cons_ne hne]
    exact ih k (fun p hp => h p (List.mem_cons_of_mem _ hp))

theorem mem_bump_key :
    ∀ (m : List (Str × Nat)) (dkey : Str) (p : Str × Nat),
      p ∈ bump_domain_count m dkey → p.1 = dkey ∨ ∃ q ∈ m, p.1 = q.1 := by
  intro m
  induction m with
  | nil =>
    intro dkey p hp
    rw [bump_domain_count] at hp
    rcases List.mem_singleton.mp hp with rfl
    exact Or.inl rfl
  | cons kv t ih =>
    intro dkey p hp
    obtain ⟨k0, v0⟩ := kv
    rw [bump_domain_count] at hp
    by_cases h1 : dkey = k0
    · rw [if_pos h1] at hp
      rcases List.mem_cons.mp hp with rfl | hp
      · exact Or.inr ⟨(k0, v0), List.mem_cons_self _ t, rfl⟩
      · exact Or.inr ⟨p, List.mem_cons_of_mem _ hp, rfl⟩
    · rw [if_neg h1] at hp
      by_cases h2 : strLeB dkey k0 = true
      · rw [if_pos h2] at hp
        rcases List.mem_cons.mp hp with rfl | hp
        · exact Or.inl rfl
        · rcases List.mem_cons.mp hp with rfl | hp
          · exact Or.inr ⟨(k0, v0), List.mem_cons_self _ t, rfl⟩
          · exact Or.inr ⟨p, List.mem_cons_of_mem _ hp, rfl⟩
      · rw [if_neg h2] at hp
        rcases List.mem_cons.mp hp with rfl | hp
        · exact Or.inr ⟨(k0, v0), List.mem_cons_self _ t, rfl⟩
        · rcases ih dkey p hp with h | ⟨q, hq, hpq⟩
          · exact Or.inl h
          · exact Or.inr ⟨q, List.mem_cons_of_mem _ hq, hpq⟩

theorem strLt_trans :
    ∀ a b c : Str, strLt a b → strLt b c → strLt a c := by
  intro a b c hab hbc
  refine ⟨strLeB_trans a b c hab.1 hbc.1, ?_⟩
  intro hac
  subst hac
  exact hab.2 (strLeB_antisymm a b hab.1 hbc.1)

theorem bump_pairwise :
    ∀ (m : List (Str × Nat)) (dkey : Str),
      List.Pairwise (fun p q => strLt p.1 q.1) m →
      List.Pairwise (fun p q => strLt p.1 q.1) (bump_domain_count m dkey) := by
  intro m
  induction m with
  | nil => intro dkey _; simp [bump_domain_count]
  | cons kv t ih =>
    intro dkey h
    obtain ⟨k0, v0⟩ := kv
    rw [List.pairwise_cons] at h
    rw [bump_domain_count]
    by_cases h1 : dkey = k0
    · rw [if_pos h1, List.pairwise_cons]
      exact ⟨h.1, h.2⟩
    · rw [if_neg h1]
      by_cases h2 : strLeB dkey k0 = true
      · rw [if_pos h2, List.pairwise_cons]
        refine ⟨?_, List.pairwise_cons.mpr h⟩
        intro q hq
        rcases List.mem_cons.mp hq with rfl | hq
        · exact ⟨h2, h1⟩
        · exact strLt_trans dkey k0 q.1 ⟨h2, h1⟩ (h.1 q hq)
      · rw [if_neg h2, List.pairwise_cons]
        refine ⟨?_, ih dkey h.2⟩
        intro q hq
        rcases mem_bump_key t dkey q hq with hqd | ⟨q0, hq0, hqq⟩
        · rw [hqd]
          rcases strLeB_total dkey k0 with h3 | h3
          · exact absurd h3 h2
          · exact ⟨h3, fun hk => h1 hk.symm⟩
        · rw [hqq]
          exact h.1 q0 hq0

theorem lookupCount_bump :
    ∀ (m : List (Str × Nat)) (dkey k : Str),
      List.Pairwise (fun p q => strLt p.1 q.1) m →
      lookupCount (bump_domain_count m dkey) k =
        if k = dkey then lookupCount m k + 1 else lookupCount m k := by
  intro m
  induction m with
  | nil =>
    intro dkey k _
    rw [bump_domain_count]
    by_cases h : k = dkey
    · subst h
      rw [if_pos rfl, lookupCount_cons_eq rfl]
      rfl
    · rw [if_neg h, lookupCount_cons_ne (Ne.symm h)]
  | cons kv t ih =>
    intro dkey k hpw
    obtain ⟨k0, v0⟩ := kv
    rw [List.pairwise_cons] at hpw
    rw [bump_domain_count]
    by_cases h1 : dkey = k0
    · subst h1
      rw [if_pos rfl]
      by_cases h2 : k = dkey
      · subst h2
        rw [if_pos rfl, lookupCount_cons_eq rfl, lookupCount_cons_eq rfl]
      · rw [if_neg h2, lookupCount_cons_ne (Ne.symm h2), lookupCount_cons_ne (Ne.symm h2)]
    · rw [if_neg h1]
      by_cases h2 : strLeB dkey k0 = true
      · rw [if_pos h2]
        by_cases h3 : k = dkey
        · subst h3
          have hzero : lookupCount ((k0, v0) :: t) k = 0 := by
            refine lookupCount_eq_zero _ k ?_
            intro p hp
            rcases List.mem_cons.mp hp with rfl | hp
            · exact fun hk => h1 hk.symm
            · have hlt := hpw.1 p hp
              intro hk
              subst hk
              exact (strLt_trans p.1 k0 p.1 ⟨h2, h1⟩ hlt).2 rfl
          rw [if_pos rfl, hzero, lookupCount_cons_eq rfl]
        · rw [if_neg h3, lookupCount_cons_ne (Ne.symm h3)]
      · rw [if_neg h2]
        by_cases h4 : k = k0
        · subst h4
          rw [lookupCount_cons_eq rfl, lookupCount_cons_eq rfl,
            if_neg (fun hk => h1 hk.symm)]
        · rw [lookupCount_cons_ne (Ne.symm h4), lookupCount_cons_ne (Ne.symm h4)]
          exact ih dkey k hpw.2

theorem bool_eq_false {b : Bool} (h : ¬ b = true) : b = false := by
  cases b
  · rfl
  · exact absurd rfl h

theorem extract_domain_counts_fold (ig : Bool) :
    ∀ (anchors : List Anchor) (m : List (Str × Nat)),
      List.Pairwise (fun p q => strLt p.1 q.1) m →
      List.Pairwise (fun p q => strLt p.1 q.1) (anchors.foldl (edcStep ig) m) ∧
      (∀ h, lookupCount (anchors.foldl (edcStep ig) m) h =
        lookupCount m h + (anchors.filter (fun a =>
          (((str "http://").isPrefixOf (lowerStr a.href) ||
            (str "https://").isPrefixOf (lowerStr a.href)) &&
          (urlHost a.href == some h)))).length) ∧
      (∀ p ∈ anchors.foldl (edcStep ig) m,
        (∃ q ∈ m, p.1 = q.1) ∨ ∃ a ∈ anchors, urlHost a.href = some p.1) := by
  intro anchors
  induction anchors with
  | nil =>
    intro m hm
    exact ⟨hm, fun h => by simp, fun p hp => Or.inl ⟨p, hp, rfl⟩⟩
  | cons a rest ih =>
    intro m hm
    rw [List.foldl_cons]
    by_cases hmag : (str "magnet:").isPrefixOf (lowerStr a.href) = true
    · have hhttp := magnet_not_http _ hmag
      have hstep : edcStep ig m a = m := by
        simp only [edcStep]
        cases ig
        · rw [if_neg (by simp), if_pos (by simp [hhttp])]
        · rw [if_pos (by simp [hmag])]
      rw [hstep]
      refine ⟨(ih m hm).1, ?_, ?_⟩
      · intro h
        rw [List.filter_cons, if_neg (by simp [hhttp])]
        exact (ih m hm).2.1 h
      · intro p hp
        rcases (ih m hm).2.2 p hp with h1 | ⟨a0, ha0, hu⟩
        · exact Or.inl h1
        · exact Or.inr ⟨a0, List.mem_cons_of_mem a ha0, hu⟩
    · have hmagf : (str "magnet:").isPrefixOf (lowerStr a.href) = false :=
        bool_eq_false hmag
      by_cases hhttp : ((str "http://").isPrefixOf (lowerStr a.href) ||
          (str "https://").isPrefixOf (lowerStr a.href)) = true
      · cases hu : urlHost a.href with
        | some host =>
          have hstep : edcStep ig m a = bump_domain_count m host := by
            simp only [edcStep]
            rw [if_neg (by simp [hmagf]), if_neg (by simp [hhttp]), hu]
          have hpw2 := bump_pairwise m host hm
          rw [hstep]
          refine ⟨(ih _ hpw2).1, ?_, ?_⟩
          · intro h
            rw [List.filter_cons, (ih _ hpw2).2.1 h, lookupCount_bump m host h hm]
            by_cases hh : h = host
            · rw [if_pos (show (((str "http://").isPrefixOf (lowerStr a.href) ||
                  (str "https://").isPrefixOf (lowerStr a.href)) &&
                  (urlHost a.href == some h)) = true by rw [hh, hu]; simp [hhttp]),
                if_pos hh]
              simp only [List.length_cons]
              omega
            · rw [if_neg (show ¬ ((((str "http://").isPrefixOf (lowerStr a.href) ||
                  (str "https://").isPrefixOf (lowerStr a.href)) &&
                  (urlHost a.href == some h)) = true) by
                    rw [hu]
                    simp only [hhttp, Bool.true_and, beq_iff_eq, Option.some.injEq]
                    exact fun hc => hh hc.symm),
                if_neg hh]
          · intro p hp
            rcases (ih _ hpw2).2.2 p hp with ⟨q, hq, hpq⟩ | ⟨a0, ha0, hu0⟩
            · rcases mem_bump_key m host q hq with hqd | ⟨q0, hq0, hqq⟩
              · refine Or.inr ⟨a, List.mem_cons_self a rest, ?_⟩
                rw [hu, hpq, hqd]
              · exact Or.inl ⟨q0, hq0, by rw [hpq, hqq]⟩
            · exact Or.inr ⟨a0, List.mem_cons_of_mem a ha0, hu0⟩
        | none =>
          have hstep : edcStep ig m a = m := by
            simp only [edcStep]
            rw [if_neg (by simp [hmagf]), if_neg (by simp [hhttp]), hu]
          rw [hstep]
          refine ⟨(ih m hm).1, ?_, ?_⟩
          · intro h
            rw [List.filter_cons, if_neg (by simp [hu])]
            exact (ih m hm).2.1 h
          · intro p hp
            rcases (ih m hm).2.2 p hp with h1 | ⟨a0, ha0, hu0⟩
            · exact Or.inl h1
            · exact Or.inr ⟨a0, List.mem_cons_of_mem a ha0, hu0⟩
      · have hhttpf : ((str "http://").isPrefixOf (lowerStr a.href) ||
            (str "https://").isPrefixOf (lowerStr a.href)) = false :=
          bool_eq_false hhttp
        have hstep : edcStep ig m a = m := by
          simp only [edcStep]
          rw [if_neg (by simp [hmagf]), if_pos (by simp [hhttpf])]
        rw [hstep]
        refine ⟨(ih m hm).1, ?_, ?_⟩
        · intro h
          rw [List.filter_cons, if_neg (by simp [hhttpf])]
          exact (ih m hm).2.1 h
        · intro p hp
          rcases (ih m hm).2.2 p hp with h1 | ⟨a0, ha0, hu0⟩
          · exact Or.inl h1
          · exact Or.inr ⟨a0, List.mem_cons_of_mem a ha0, hu0⟩

/-- The claim about domain aggregation: a magnet target never contributes
whatever the toggle says (the aggregation result does not even depend on
the toggle), every http(s) target whose modelled URL parse yields a host
increments exactly that host, a target that fails to parse is skipped
silently, and every counted key is the parsed host of some anchor. -/
theorem domain_counts_spec (anchors : List Anchor) (ig : Bool) (host : Str) :
    lookupCount (extract_domain_counts anchors ig) host =
      (anchors.filter (fun a =>
        (((str "http://").isPrefixOf (lowerStr a.href) ||
          (str "https://").isPrefixOf (lowerStr a.href)) &&
        (urlHost a.href == some host)))).length ∧
    extract_domain_counts anchors true = extract_domain_counts anchors false ∧
    (∀ p ∈ extract_domain_counts anchors ig,
      ∃ a ∈ anchors, urlHost a.href = some p.1) := by
  refine ⟨?_, ?_, ?_⟩
  · have h := (extract_domain_counts_fold ig anchors [] (by simp)).2.1 host
    have h0 : lookupCount ([] : List (Str × Nat)) host = 0 := rfl
    rw [extract_domain_counts, h, h0, Nat.zero_add]
  · rw [extract_domain_counts, extract_domain_counts]
    apply List.foldl_ext
    intro m a _
    by_cases hmag : (str "magnet:").isPrefixOf (lowerStr a.href) = true
    · have hhttp := magnet_not_http _ hmag
      simp [edcStep, hmag, hhttp]
    · have hmagf : (str "magnet:").isPrefixOf (lowerStr a.href) = false :=
        bool_eq_false hmag
      simp [edcStep, hmagf]
  · intro p hp
    rw [extract_domain_counts] at hp
    rcases (extract_domain_counts_fold ig anchors [] (by simp)).2.2 p hp with
      ⟨q, hq, _⟩ | h
    · exact absurd hq (List.not_mem_nil q)
    · exact h

theorem domain_counts_spec_witness :
    ∃ a ∈ scenarioAnchors, urlHost a.href = some (str "host-a") :=
  (domain_counts_spec scenarioAnchors false (str "host-a")).2.2
    (str "host-a", 2) (by decide)

/-- The claim about the torrent-presence flag: it is present exactly when
its toggle is on, in which case it is true iff the extracted torrent-link
list is non-empty; with the toggle off it is absent — in both variants. -/
theorem torrent_flag_spec (d : Doc) (cfg : Config) :
    ((assemble_wordpress_release d cfg).torrent_file.isSome = cfg.scrape.torrent_file) ∧
    (cfg.scrape.torrent_file = true →
      (assemble_wordpress_release d cfg).torrent_file =
        some (!(extract_torrent_and_magnet d.anchors).torrent_file_links.isEmpty)) ∧
    (cfg.scrape.torrent_file = false →
      (assemble_wordpress_release d cfg).torrent_file = none) ∧
    (∀ b, (assemble_wordpress_release d cfg).torrent_file = some b →
      (b = true ↔ (extract_torrent_and_magnet d.anchors).torrent_file_links ≠ [])) ∧
    ((assemble_generic d cfg).torrent_file.isSome = cfg.scrape.torrent_file) ∧
    (cfg.scrape.torrent_file = true →
      (assemble_generic d cfg).torrent_file =
        some (!(extract_torrent_and_magnet d.anchors).torrent_file_links.isEmpty)) ∧
    (cfg.scrape.torrent_file = false → (assemble_generic d cfg).torrent_file = none) ∧
    (∀ b, (assemble_generic d cfg).torrent_file = some b →
      (b = true ↔ (extract_torrent_and_magnet d.anchors).torrent_file_links ≠ [])) := by
  refine ⟨?_, ?_, ?_, ?_, ?_, ?_, ?_, ?_⟩
  · cases htf : cfg.scrape.torrent_file
    · simp [assemble_wordpress_release, htf]
    · simp [assemble_wordpress_release, torrentGuard, htf]
  · intro h
    simp [assemble_wordpress_release, torrentGuard, h]
  · intro h
    simp [assemble_wordpress_release, h]
  · intro b hb
    cases htf : cfg.scrape.torrent_file
    · rw [show (assemble_wordpress_release d cfg).torrent_file = none by
        simp [assemble_wordpress_release, htf]] at hb
      exact absurd hb (by simp)
    · rw [show (assemble_wordpress_release d cfg).torrent_file =
          some (!(extract_torrent_and_magnet d.anchors).torrent_file_links.isEmpty) by
        simp [assemble_wordpress_release, torrentGuard, htf]] at hb
      have hbe := Option.some.inj hb
      subst hbe
      simp [List.isEmpty_iff]
  · cases htf : cfg.scrape.torrent_file
    · simp [assemble_generic, htf]
    · simp [assemble_generic, torrentGuard, htf]
  · intro h
    simp [assemble_generic, torrentGuard, h]
  · intro h
    simp [assemble_generic, h]
  · intro b hb
    cases htf : cfg.scrape.torrent_file
    · rw [show (assemble_generic d cfg).torrent_file = none by
        simp [assemble_generic, htf]] at hb
      exact absurd hb (by simp)
    · rw [show (assemble_generic d cfg).torrent_file =
          some (!(extract_torrent_and_magnet d.anchors).torrent_file_links.isEmpty) by
        simp [assemble_generic, torrentGuard, htf]] at hb
      have hbe := Option.some.inj hb
      subst hbe
      simp [List.isEmpty_iff]

theorem torrent_flag_spec_witness :
    (assemble_wordpress_release emptyDoc cfgAllOn).torrent_file =
      some (!(extract_torrent_and_magnet emptyDoc.anchors).torrent_file_links.isEmpty) :=
  (torrent_flag_spec emptyDoc cfgAllOn).2.1 rfl

theorem select_text_ne_empty (r : Option Str) : select_text r ≠ some [] := by
  rw [select_text]
  cases r with
  | none => simp
  | some t =>
    by_cases h : normalize_ws t = [] <;> simp [h]

theorem mem_select_all_text {raws : List Str} {c : Str}
    (h : c ∈ select_all_text raws) : c ≠ [] := by
  rw [select_all_text] at h
  obtain ⟨t, _, ht⟩ := List.mem_filterMap.mp h
  by_cases h2 : normalize_ws t = []
  · rw [if_pos h2] at ht
    exact absurd ht (by simp)
  · rw [if_neg h2] at ht
    have := Option.some.inj ht
    subst this
    exact h2

theorem processSpoiler_nonempty {deny : List Str} {sp : SpoilerBlock} {s : SpoilerSection}
    (h : processSpoiler deny sp = some s) : s.title ≠ [] ∧ s.text ≠ [] := by
  simp only [processSpoiler] at h
  split at h
  · exact absurd h (by simp)
  · split at h
    · rename_i hcond
      have := Option.some.inj h
      rw [← this]
      exact ⟨hcond.1, hcond.2⟩
    · exact absurd h (by simp)

/-- The claim that optional fields derived from element text are never
present with an empty value, that category entries are never empty, and
that kept spoiler sections have non-empty title and body: text that
normalizes to empty is treated as absent or dropped. -/
theorem text_fields_nonempty (d : Doc) (cfg : Config) :
    (∀ pg, (assemble_wordpress_release d cfg).page = some pg → pg.title ≠ some []) ∧
    (∀ pg, (assemble_generic d cfg).page = some pg → pg.title ≠ some []) ∧
    (∀ p, (assemble_wordpress_release d cfg).post = some p →
      p.entry_title ≠ some [] ∧ p.author ≠ some [] ∧ ∀ c ∈ p.categories, c ≠ []) ∧
    (d.entryDate.bind TimeEl.datetimeAttr = none →
      ∀ p, (assemble_wordpress_release d cfg).post = some p →
        p.entry_datetime ≠ some []) ∧
    (∀ r, (assemble_wordpress_release d cfg).release = some r →
      r.game_title_line ≠ some []) ∧
    (∀ s ∈ (assemble_wordpress_release d cfg).spoiler_sections,
      s.title ≠ [] ∧ s.text ≠ []) := by
  refine ⟨?_, ?_, ?_, ?_, ?_, ?_⟩
  · intro pg hpg
    simp only [assemble_wordpress_release, buildPage] at hpg
    split at hpg
    · have := Option.some.inj hpg
      rw [← this]
      split
      · exact select_text_ne_empty d.headTitle
      · simp
    · exact absurd hpg (by simp)
  · intro pg hpg
    simp only [assemble_generic, buildPage] at hpg
    split at hpg
    · have := Option.some.inj hpg
      rw [← this]
      split
      · exact select_text_ne_empty d.headTitle
      · simp
    · exact absurd hpg (by simp)
  · intro p hp
    simp only [assemble_wordpress_release, Option.some.injEq] at hp
    subst hp
    refine ⟨?_, ?_, ?_⟩
    · simp only [buildPost]
      split
      · exact select_text_ne_empty d.entryTitleText
      · simp
    · simp only [buildPost]
      split
      · exact select_text_ne_empty d.authorText
      · simp
    · intro c hc
      simp only [buildPost] at hc
      split at hc
      · exact mem_select_all_text hc
      · exact absurd hc (List.not_mem_nil c)
  · intro hattr p hp
    simp only [assemble_wordpress_release, Option.some.injEq] at hp
    subst hp
    simp only [buildPost, hattr]
    split
    · exact select_text_ne_empty (d.entryDate.map TimeEl.text)
    · simp
  · intro r hr
    simp only [assemble_wordpress_release, Option.some.injEq] at hr
    subst hr
    simp only [buildRelease]
    split
    · split
      · exact select_text_ne_empty d.contentH3s.head?
      · simp
    · simp
  · intro s hs
    simp only [assemble_wordpress_release] at hs
    split at hs
    · rw [extract_spoilers] at hs
      obtain ⟨sp, _, hsp⟩ := List.mem_filterMap.mp hs
      exact processSpoiler_nonempty hsp
    · exact absurd hs (List.not_mem_nil s)

theorem text_fields_nonempty_witness :
    (buildPost emptyDoc cfgAllOn).entry_datetime ≠ some [] :=
  (text_fields_nonempty emptyDoc cfgAllOn).2.2.2.1 rfl (buildPost emptyDoc cfgAllOn) rfl
